import Mathlib

/-!
Verification development for the ingress-doperator repository.

Go strings are modelled as lists of characters (`GoStr`); Go byte strings
(hash inputs) as lists of naturals; Go maps as association lists (iteration
order fixed to insertion order, a deterministic refinement of Go's
unspecified map iteration order) or, where only lookups matter, as
functions to `Option`.  Machine integers are modelled as `Nat`/`Int` with
explicit `% 2^32` where Go's `uint32` wraps.  Fallible operations return
`Option`/`Except`.
-/

/-- Go `string`, modelled as its character sequence. -/
abbrev GoStr := List Char

/-- Whitespace predicate of Go's `unicode.IsSpace` restricted to the ASCII
whitespace characters plus U+0085 and U+00A0 (the rarer Unicode space
characters are not produced by any caller in this repository). -/
def goIsSpace (c : Char) : Bool :=
  c = ' ' || c = '\t' || c = '\n' || c = (Char.ofNat 11) || c = (Char.ofNat 12) ||
    c = '\r' || c = (Char.ofNat 133) || c = (Char.ofNat 160)

/-- Go `strings.TrimSpace`: drop leading and trailing whitespace. -/
def goTrim (s : GoStr) : GoStr :=
  ((s.dropWhile goIsSpace).reverse.dropWhile goIsSpace).reverse

/-- Go `strings.Split(s, sep)` for a one-character separator: the list of
(possibly empty) fragments between occurrences of `sep`; `Split("", sep)`
is `[""]`. -/
def goSplit (sep : Char) : GoStr → List GoStr
  | [] => [[]]
  | c :: rest =>
    if c = sep then [] :: goSplit sep rest
    else
      match goSplit sep rest with
      | [] => [[c]]
      | p :: ps => (c :: p) :: ps

/-- Go `strings.Join(parts, sep)`. -/
def goJoin (sep : GoStr) : List GoStr → GoStr
  | [] => []
  | [p] => p
  | p :: ps => p ++ sep ++ goJoin sep ps

/-- The token-collection loop shared by both union merge policies: trim the
token, skip it when empty or already collected, otherwise append it
(this is the `values`/`seenInResult` accumulation in the Go source, with
list membership standing for the `seenInResult` set). -/
def collectToken (acc : List GoStr) (v : GoStr) : List GoStr :=
  if goTrim v ≠ [] ∧ goTrim v ∉ acc then acc ++ [goTrim v] else acc

/-- `MergeAnnotationValues` from `internal/translator/gateway_utils.go`:
comma-separated ordered union with trimming and de-duplication
(existing side first, then desired side). -/
def mergeAnnotationValues (existing desired : GoStr) : GoStr :=
  if existing = [] then desired
  else if desired = [] then existing
  else goJoin [','] ((goSplit ',' existing ++ goSplit ',' desired).foldl collectToken [])

/-- `MergeCertificateMismatchAnnotation` from
`internal/translator/gateway_utils.go`: semicolon-separated union with
trimming and de-duplication, re-joined with `"; "`.  The Go source
collects the records into a `map[string]bool` and emits them in map
iteration order (despite the comment, no sort is performed); the model
fixes that unspecified order to first-insertion order. -/
def mergeCertificateMismatch (existing desired : GoStr) : GoStr :=
  if existing = [] then desired
  else if desired = [] then existing
  else goJoin [';', ' '] ((goSplit ';' existing ++ goSplit ';' desired).foldl collectToken [])

/-- The unconditional-overwrite merge policy applied by `MergeGatewaySpec`
to keys under the engine's own prefix: `existing.Annotations[k] = v`. -/
def overwriteMergeValue (_existing desired : GoStr) : GoStr := desired

/-- Canonical normal form of a comma-policy value: tokens trimmed, empty
tokens dropped, first occurrence kept, re-joined with `","`. -/
def normalizeCommaValue (a : GoStr) : GoStr :=
  goJoin [','] ((goSplit ',' a).foldl collectToken [])

/-- Canonical normal form of a semicolon-policy value: records trimmed,
empty records dropped, first occurrence kept, re-joined with `"; "`. -/
def normalizeSemiValue (a : GoStr) : GoStr :=
  goJoin [';', ' '] ((goSplit ';' a).foldl collectToken [])

-- Lemmas about the token-collection fold.

theorem collectToken_subset {acc : List GoStr} {x : GoStr} (l : List GoStr)
    (hx : x ∈ acc) : x ∈ l.foldl collectToken acc := by
  induction l generalizing acc with
  | nil => exact hx
  | cons v rest ih =>
    refine ih ?_
    unfold collectToken
    split
    · exact List.mem_append_left _ hx
    · exact hx

theorem collectToken_step {acc : List GoStr} (v : GoStr) (hne : goTrim v ≠ []) :
    goTrim v ∈ collectToken acc v := by
  unfold collectToken
  by_cases hmem : goTrim v ∈ acc
  · rw [if_neg (fun hc => hc.2 hmem)]
    exact hmem
  · rw [if_pos (And.intro hne hmem)]
    exact List.mem_append_right _ (List.mem_singleton.mpr rfl)

theorem collectToken_mem {l : List GoStr} {v : GoStr} (acc : List GoStr)
    (hv : v ∈ l) (hne : goTrim v ≠ []) : goTrim v ∈ l.foldl collectToken acc := by
  induction l generalizing acc with
  | nil => cases hv
  | cons w rest ih =>
    rw [List.foldl_cons]
    rcases List.mem_cons.mp hv with h | h
    · subst h
      exact collectToken_subset rest (collectToken_step v hne)
    · exact ih (collectToken acc w) h

theorem collectToken_noop {l : List GoStr} {acc : List GoStr}
    (h : ∀ v ∈ l, goTrim v = [] ∨ goTrim v ∈ acc) :
    l.foldl collectToken acc = acc := by
  induction l with
  | nil => rfl
  | cons v rest ih =>
    have hstep : collectToken acc v = acc := by
      unfold collectToken
      rcases h v (List.mem_cons_self _ _) with h0 | h0
      · rw [if_neg]; intro hc; exact hc.1 h0
      · rw [if_neg]; intro hc; exact hc.2 h0
    rw [List.foldl_cons, hstep]
    exact ih fun v hv => h v (List.mem_cons_of_mem _ hv)

theorem collectToken_self_append (l : List GoStr) :
    (l ++ l).foldl collectToken [] = l.foldl collectToken [] := by
  rw [List.foldl_append]
  refine collectToken_noop fun v hv => ?_
  by_cases hne : goTrim v = []
  · exact Or.inl hne
  · exact Or.inr (collectToken_mem [] hv hne)

theorem mergeAnnotationValues_self (a : GoStr) :
    mergeAnnotationValues a a = normalizeCommaValue a := by
  by_cases h : a = []
  · subst h; decide
  · unfold mergeAnnotationValues normalizeCommaValue
    rw [if_neg h, if_neg h, collectToken_self_append]

theorem mergeCertificateMismatch_self (a : GoStr) :
    mergeCertificateMismatch a a = normalizeSemiValue a := by
  by_cases h : a = []
  · subst h; decide
  · unfold mergeCertificateMismatch normalizeSemiValue
    rw [if_neg h, if_neg h, collectToken_self_append]

/-- C6: merging an annotation value with itself is the identity for the
unconditional-overwrite policy; for the comma-separated ordered-union
policy and the semicolon-separated certificate-mismatch policy, merging a
value with itself yields the canonical de-duplicated normal form of that
value (tokens trimmed, empty tokens dropped, first occurrence kept), and
is therefore the identity exactly on values already in that normal form.
-/
theorem c6_merge_self_idempotent :
    (∀ a : GoStr, overwriteMergeValue a a = a) ∧
    (∀ a : GoStr, mergeAnnotationValues a a = normalizeCommaValue a) ∧
    (∀ a : GoStr, mergeCertificateMismatch a a = normalizeSemiValue a) ∧
    (∀ a : GoStr, normalizeCommaValue a = a → mergeAnnotationValues a a = a) ∧
    (∀ a : GoStr, normalizeSemiValue a = a → mergeCertificateMismatch a a = a) := by
  refine ⟨fun a => rfl, mergeAnnotationValues_self, mergeCertificateMismatch_self, ?_, ?_⟩
  · intro a h; rw [mergeAnnotationValues_self, h]
  · intro a h; rw [mergeCertificateMismatch_self, h]

/-- C6 counterexample: for the two union policies, merging a value with
itself does not in general return the value — whitespace around tokens is
stripped and the semicolon policy re-joins with `"; "` — so
`merge(A, A) == A` fails even for values with no duplicate tokens. -/
theorem c6_counterexample :
    mergeAnnotationValues ("a , b".data) ("a , b".data) = ("a,b".data) ∧
    ("a,b".data) ≠ ("a , b".data) ∧
    mergeCertificateMismatch ("x;y".data) ("x;y".data) = ("x; y".data) ∧
    ("x; y".data) ≠ ("x;y".data) := by decide

/-- C6 witness: the amended statement evaluated at concrete values. -/
theorem c6_witness :
    (normalizeCommaValue ("a,b".data) = ("a,b".data) ∧
      mergeAnnotationValues ("a,b".data) ("a,b".data) = ("a,b".data)) ∧
    (normalizeSemiValue ("x; y".data) = ("x; y".data) ∧
      mergeCertificateMismatch ("x; y".data) ("x; y".data) = ("x; y".data)) :=
  ⟨⟨by decide, c6_merge_self_idempotent.2.2.2.1 ("a,b".data) (by decide)⟩,
    ⟨by decide, c6_merge_self_idempotent.2.2.2.2 ("x; y".data) (by decide)⟩⟩

/-! ## Annotation maps

Go annotation maps (`map[string]string`) modelled as association lists;
`annGet` is Go's zero-value indexing `m[k]`, `annHas` the comma-ok form
`_, ok := m[k]`.  A `nil` Go map is `Option.none` one level up. -/

def annFind : List (String × String) → String → Option String
  | [], _ => none
  | p :: rest, k => if p.1 = k then some p.2 else annFind rest k

def annGet (m : List (String × String)) (k : String) : String :=
  (annFind m k).getD ""

def annHas (m : List (String × String)) (k : String) : Bool :=
  (annFind m k).isSome

def annDel : List (String × String) → String → List (String × String)
  | [], _ => []
  | p :: rest, k => if p.1 = k then annDel rest k else p :: annDel rest k

def annSet : List (String × String) → String → String → List (String × String)
  | [], k, v => [(k, v)]
  | p :: rest, k, v => if p.1 = k then (k, v) :: rest else p :: annSet rest k v

def annGetOpt (m : Option (List (String × String))) (k : String) : String :=
  match m with
  | none => ""
  | some l => annGet l k

def annHasOpt (m : Option (List (String × String))) (k : String) : Bool :=
  match m with
  | none => false
  | some l => annHas l k

/-! ## Ownership guard (`internal/utils/resource.go`) -/

/-- `ManagedByAnnotation` from `internal/utils/resource.go`. -/
def managedByKey : String := "ingress-operator.fiction.si/managed-by"

/-- `ManagedByValue` from `internal/utils/resource.go`. -/
def managedByValue : String := "ingress-controller"

/-- A cluster object as seen by the ownership guard: only its annotation
map (`GetAnnotations`, which may be `nil`) is inspected. -/
structure KObject where
  annotations : Option (List (String × String))
deriving DecidableEq

/-- `IsManagedByUs` from `internal/utils/resource.go`. -/
def IsManagedByUs (obj : KObject) : Bool :=
  match obj.annotations with
  | none => false
  | some anns => annGet anns managedByKey = managedByValue

/-- Outcome of the client `Get` in `CanUpdateResource`: the store reports
not-found distinctly from other failures. -/
inductive FetchResult where
  | notFound
  | found (obj : KObject)
  | failure (msg : String)
deriving DecidableEq

/-- `CanUpdateResource` from `internal/utils/resource.go`, as a pure
function of the fetch outcome. -/
def CanUpdateResource (fetch : FetchResult) : Bool × Option String :=
  match fetch with
  | .notFound => (true, none)
  | .failure e => (false, some e)
  | .found obj => if IsManagedByUs obj then (true, none) else (false, none)

/-- C4: the mutate check returns (true, nil) on not-found, (true, nil) when
the object exists and carries the engine's identity annotation with the
expected value, (false, nil) — never an error — when the object exists but
is not owned, and (false, err) on any other fetch failure. -/
theorem c4_can_update_resource :
    (CanUpdateResource .notFound = (true, none)) ∧
    (∀ obj, IsManagedByUs obj = true → CanUpdateResource (.found obj) = (true, none)) ∧
    (∀ obj, IsManagedByUs obj = false → CanUpdateResource (.found obj) = (false, none)) ∧
    (∀ e, CanUpdateResource (.failure e) = (false, some e)) := by
  refine ⟨rfl, ?_, ?_, fun e => rfl⟩
  · intro obj h
    simp [CanUpdateResource, h]
  · intro obj h
    simp [CanUpdateResource, h]

/-- C4 witness: the mutate check evaluated on a concrete owned object and a
concrete foreign object. -/
theorem c4_witness :
    CanUpdateResource (.found ⟨some [(managedByKey, managedByValue)]⟩) = (true, none) ∧
    CanUpdateResource (.found ⟨some [(managedByKey, "someone-else")]⟩) = (false, none) :=
  ⟨c4_can_update_resource.2.1 _ (by decide), c4_can_update_resource.2.2.1 _ (by decide)⟩

/-! ## Disable/restore state machine (`cmd/reenabler/main.go`)

The annotation-key and marker constants below live in the repository's
`internal/controller` package, which is not among the provided sources;
only their names appear in `cmd/reenabler/main.go`.  They are therefore
modelled from the spec (§6 "Shadow-state annotation keys") as fixed,
pairwise-distinct strings; no theorem depends on their exact values, only
on their distinctness. -/

/-- Modelled from the spec: `controller.IngressDisabledAnnotation`, the
disabled-marker key whose value is the disable reason. -/
def ingressDisabledKey : String := "ingress-doperator.fiction.si/disabled"

/-- Modelled from the spec: `controller.IngressClassAnnotation`, the legacy
class annotation key. -/
def ingressClassKey : String := "kubernetes.io/ingress.class"

/-- Modelled from the spec: `controller.DisabledIngressClassName`, the
marker class an ingress is switched to when disabled. -/
def disabledClassName : String := "ingress-doperator-disabled"

/-- Modelled from the spec: `controller.OriginalIngressClassNameAnnotation`,
the shadow key recording the pre-override spec class field. -/
def originalClassNameKey : String := "ingress-doperator.fiction.si/original-ingress-class-name"

/-- Modelled from the spec: `controller.OriginalIngressClassAnnotation`,
the shadow key recording the pre-override class annotation. -/
def originalClassKey : String := "ingress-doperator.fiction.si/original-ingress-class"

/-- Modelled from the spec: `controller.OriginalExternalDNSHostname`, the
shadow key recording the pre-override externally-visible hostname. -/
def originalExtHostnameKey : String := "ingress-doperator.fiction.si/original-external-dns-hostname"

/-- Modelled from the spec: `controller.ExternalDNSHostnameAnnotation`, the
live external-DNS hostname key. -/
def extHostnameKey : String := "external-dns.alpha.kubernetes.io/hostname"

/-- Modelled from the spec:
`controller.OriginalExternalDNSIngressHostnameSource`, the shadow key
recording the pre-override hostname-source marker. -/
def originalExtSourceKey : String := "ingress-doperator.fiction.si/original-external-dns-ingress-hostname-source"

/-- Modelled from the spec: `controller.ExternalDNSIngressHostnameSource`,
the live hostname-source marker key. -/
def extSourceKey : String := "external-dns.alpha.kubernetes.io/ingress-hostname-source"

/-- Modelled from the spec: `controller.IngressDisabledReasonNormal`, the
generic-disable reason value (non-empty, distinct from the external-DNS
reason). -/
def reasonNormal : String := "disabled"

/-- Modelled from the spec: `controller.IngressDisabledReasonExternalDNS`,
the hostname-disable reason value (non-empty, distinct from the generic
reason). -/
def reasonExternalDNS : String := "external-dns"

/-- An ingress declaration as read by the reenabler: identity, the spec
class field, and the annotation map (which may be `nil`). -/
structure Ingress where
  ns : String
  name : String
  ingressClassName : Option String
  annotations : Option (List (String × String))
deriving DecidableEq

/-- `isDisabledIngress` from `cmd/reenabler/main.go` (a `nil` ingress
pointer is `Option.none`). -/
def isDisabledIngress : Option Ingress → Bool
  | none => false
  | some ing =>
    match ing.annotations with
    | none => false
    | some anns =>
      if annGet anns ingressDisabledKey = "" then false
      else if ing.ingressClassName = some disabledClassName then true
      else if annGet anns ingressClassKey = disabledClassName then true
      else false

/-- `shouldDeleteIngress` from `cmd/reenabler/main.go`. -/
def shouldDeleteIngress : Option Ingress → Bool
  | none => false
  | some ing =>
    match ing.annotations with
    | none => false
    | some anns =>
      if annGet anns ingressDisabledKey = "" then false
      else if annGet anns ingressDisabledKey = reasonNormal then
        isDisabledIngress (some ing)
      else if annGet anns ingressDisabledKey = reasonExternalDNS then
        if annGet anns extSourceKey = "" then false
        else annHas anns originalExtHostnameKey || annHas anns originalExtSourceKey
      else false

/-- C2 (amended): `isDisabledIngress` is true iff the engine's disabled
annotation is present and non-empty AND the declaration's class (spec
field or class annotation) equals the disabled marker class — a
conjunction, not a disjunction. -/
theorem c2_is_disabled_characterization (ing : Ingress) :
    isDisabledIngress (some ing) = true ↔
      (annGetOpt ing.annotations ingressDisabledKey ≠ "" ∧
        (ing.ingressClassName = some disabledClassName ∨
          annGetOpt ing.annotations ingressClassKey = disabledClassName)) := by
  cases h : ing.annotations with
  | none => simp [isDisabledIngress, annGetOpt, h]
  | some anns =>
    simp only [isDisabledIngress, annGetOpt, h]
    split_ifs with h1 h2 h3
    · simp [h1]
    · simp [h1, h2]
    · simp [h1, h3]
    · simp [h1, h2, h3]

/-- C2 counterexample: an ingress whose spec class field equals the
disabled marker class but which lacks the engine's disabled annotation is
NOT reported as disabled — the claimed disjunction fails; the code
requires the disabled annotation in addition to the class match. -/
theorem c2_counterexample :
    isDisabledIngress (some ⟨"ns", "n", some disabledClassName, some []⟩) = false ∧
    (⟨"ns", "n", some disabledClassName, some []⟩ : Ingress).ingressClassName =
      some disabledClassName := by decide

/-- C2 witness: the amended characterization evaluated on a concrete
disabled ingress. -/
theorem c2_witness :
    isDisabledIngress
      (some ⟨"ns", "n", some disabledClassName,
        some [(ingressDisabledKey, reasonNormal)]⟩) = true :=
  (c2_is_disabled_characterization _).mpr ⟨by decide, Or.inl rfl⟩

/-- C3: `shouldDeleteIngress` returns false when the disabled marker is
absent or empty; returns false for the external-DNS reason when neither
shadow hostname annotation is present; and returns true only when the
reason is one of the two known reasons, with the external-DNS reason
additionally requiring a shadow hostname annotation. -/
theorem c3_should_delete_guards :
    (∀ ing : Ingress, annGetOpt ing.annotations ingressDisabledKey = "" →
      shouldDeleteIngress (some ing) = false) ∧
    (∀ ing : Ingress,
      annGetOpt ing.annotations ingressDisabledKey = reasonExternalDNS →
      annHasOpt ing.annotations originalExtHostnameKey = false →
      annHasOpt ing.annotations originalExtSourceKey = false →
      shouldDeleteIngress (some ing) = false) ∧
    (∀ ing : Ingress, shouldDeleteIngress (some ing) = true →
      (annGetOpt ing.annotations ingressDisabledKey = reasonNormal ∨
        annGetOpt ing.annotations ingressDisabledKey = reasonExternalDNS) ∧
      (annGetOpt ing.annotations ingressDisabledKey = reasonExternalDNS →
        (annHasOpt ing.annotations originalExtHostnameKey = true ∨
          annHasOpt ing.annotations originalExtSourceKey = true))) := by
  refine ⟨?_, ?_, ?_⟩
  · intro ing hdv
    cases h : ing.annotations with
    | none => simp [shouldDeleteIngress, h]
    | some anns =>
      rw [h] at hdv
      simp only [annGetOpt] at hdv
      simp [shouldDeleteIngress, h, hdv]
  · intro ing hdv hh hs
    cases h : ing.annotations with
    | none => simp [shouldDeleteIngress, h]
    | some anns =>
      rw [h] at hdv hh hs
      simp only [annGetOpt] at hdv
      simp only [annHasOpt] at hh hs
      have hne : reasonExternalDNS ≠ reasonNormal := by decide
      have hne2 : reasonExternalDNS ≠ "" := by decide
      simp [shouldDeleteIngress, h, hdv, hne, hne2, hh, hs]
  · intro ing hsd
    cases h : ing.annotations with
    | none => simp [shouldDeleteIngress, h] at hsd
    | some anns =>
      simp only [shouldDeleteIngress, h] at hsd
      simp only [annGetOpt, annHasOpt]
      by_cases h1 : annGet anns ingressDisabledKey = ""
      · rw [if_pos h1] at hsd; cases hsd
      · rw [if_neg h1] at hsd
        by_cases h2 : annGet anns ingressDisabledKey = reasonNormal
        · rw [if_pos h2] at hsd
          exact ⟨Or.inl h2, fun hc => absurd (h2.symm.trans hc) (by decide)⟩
        · rw [if_neg h2] at hsd
          by_cases h3 : annGet anns ingressDisabledKey = reasonExternalDNS
          · rw [if_pos h3] at hsd
            by_cases h4 : annGet anns extSourceKey = ""
            · rw [if_pos h4] at hsd; cases hsd
            · rw [if_neg h4] at hsd
              refine ⟨Or.inr h3, fun _ => ?_⟩
              rcases Bool.or_eq_true_iff.mp hsd with hx | hx
              · exact Or.inl hx
              · exact Or.inr hx
          · rw [if_neg h3] at hsd; cases hsd

/-- C3 witness: the guards evaluated at concrete ingresses. -/
theorem c3_witness :
    shouldDeleteIngress (some ⟨"ns", "n", none, some [("x", "y")]⟩) = false ∧
    shouldDeleteIngress
      (some ⟨"ns", "n", none,
        some [(ingressDisabledKey, reasonExternalDNS), (extSourceKey, "ingress")]⟩) = false :=
  ⟨c3_should_delete_guards.1 _ (by decide),
    c3_should_delete_guards.2.1 _ (by decide) (by decide) (by decide)⟩

theorem annFind_annDel_ne {k k' : String} (m : List (String × String)) (hne : k ≠ k') :
    annFind (annDel m k') k = annFind m k := by
  induction m with
  | nil => rfl
  | cons p rest ih =>
    by_cases hp : p.1 = k'
    · have hpk : ¬ (p.1 = k) := fun hc => hne (hc.symm.trans hp)
      simp [annDel, annFind, hp, hpk, ih, hne, Ne.symm hne]
    · by_cases hk : p.1 = k
      · simp [annDel, annFind, hp, hk, hne, Ne.symm hne]
      · simp [annDel, annFind, hp, hk, ih]

theorem annFind_annSet_ne {k k' : String} (m : List (String × String)) (v : String)
    (hne : k ≠ k') : annFind (annSet m k' v) k = annFind m k := by
  induction m with
  | nil => simp [annSet, annFind, Ne.symm hne]
  | cons p rest ih =>
    by_cases hp : p.1 = k'
    · have hpk : ¬ (p.1 = k) := fun hc => hne (hc.symm.trans hp)
      simp [annSet, annFind, hp, hpk, hne, Ne.symm hne]
    · by_cases hk : p.1 = k
      · simp [annSet, annFind, hp, hk, hne, Ne.symm hne]
      · simp [annSet, annFind, hp, hk, ih]

theorem annHas_annDel_ne {k k' : String} (m : List (String × String)) (hne : k ≠ k') :
    annHas (annDel m k') k = annHas m k := by
  unfold annHas; rw [annFind_annDel_ne m hne]

theorem annHas_annSet_ne {k k' : String} (m : List (String × String)) (v : String)
    (hne : k ≠ k') : annHas (annSet m k' v) k = annHas m k := by
  unfold annHas; rw [annFind_annSet_ne m v hne]

/-- The class-dimension annotation rewrite of `restoreIngressState` (the
body of the `if restoreClass` block in `cmd/reenabler/main.go`): restore
or clear the class annotation, then delete the disabled marker and the
two class shadow keys. -/
def restoreClassAnns (anns : List (String × String)) : List (String × String) :=
  annDel (annDel (annDel
    (if annGet anns originalClassKey ≠ "" then
      annSet anns ingressClassKey (annGet anns originalClassKey)
    else annDel anns ingressClassKey)
    ingressDisabledKey) originalClassNameKey) originalClassKey

/-- The hostname-dimension rewrite (first `restoreExternalDNS` branch):
restore or clear the live hostname annotation, then delete its shadow. -/
def restoreHostAnns (anns : List (String × String)) : List (String × String) :=
  annDel
    (if annGet anns originalExtHostnameKey ≠ "" then
      annSet anns extHostnameKey (annGet anns originalExtHostnameKey)
    else annDel anns extHostnameKey)
    originalExtHostnameKey

/-- The hostname-source rewrite (second `restoreExternalDNS` branch):
restore or clear the live hostname-source marker, then delete its shadow. -/
def restoreSrcAnns (anns : List (String × String)) : List (String × String) :=
  annDel
    (if annGet anns originalExtSourceKey ≠ "" then
      annSet anns extSourceKey (annGet anns originalExtSourceKey)
    else annDel anns extSourceKey)
    originalExtSourceKey

/-- `restoreIngressState` from `cmd/reenabler/main.go`, as a pure function
returning the object written to the store (`some updated` when
`cli.Update` is called, `none` when the function returns without a
write).  The Go `modified` flag is the disjunction guarding the final
`if`. -/
def restoreIngressState (ing : Option Ingress) (rc rext : Bool) : Option Ingress :=
  match ing with
  | none => none
  | some ingress =>
    let anns0 := match ingress.annotations with
      | none => []
      | some a => a
    let cn1 := if rc then
        (if annGet anns0 originalClassNameKey ≠ "" then
          some (annGet anns0 originalClassNameKey) else none)
      else ingress.ingressClassName
    let anns1 := if rc then restoreClassAnns anns0 else anns0
    let hHost := rext && annHas anns1 originalExtHostnameKey
    let anns2 := if hHost then restoreHostAnns anns1 else anns1
    let hSrc := rext && annHas anns2 originalExtSourceKey
    let hLive := rext && !annHas anns2 originalExtSourceKey && annHas anns2 extSourceKey
    let anns3 := if hSrc then restoreSrcAnns anns2
      else if hLive then annDel anns2 extSourceKey
      else anns2
    if rc || hHost || hSrc || hLive then
      some ⟨ingress.ns, ingress.name, cn1, some anns3⟩
    else none

theorem annHas_restoreClassAnns (anns : List (String × String)) (K : String)
    (h1 : K ≠ originalClassKey) (h2 : K ≠ originalClassNameKey)
    (h3 : K ≠ ingressDisabledKey) (h4 : K ≠ ingressClassKey) :
    annHas (restoreClassAnns anns) K = annHas anns K := by
  unfold restoreClassAnns
  rw [annHas_annDel_ne _ h1, annHas_annDel_ne _ h2, annHas_annDel_ne _ h3]
  by_cases hc : annGet anns originalClassKey ≠ ""
  · rw [if_pos hc, annHas_annSet_ne _ _ h4]
  · rw [if_neg hc, annHas_annDel_ne _ h4]

theorem annHas_restoreHostAnns (anns : List (String × String)) (K : String)
    (h1 : K ≠ originalExtHostnameKey) (h2 : K ≠ extHostnameKey) :
    annHas (restoreHostAnns anns) K = annHas anns K := by
  unfold restoreHostAnns
  rw [annHas_annDel_ne _ h1]
  by_cases hc : annGet anns originalExtHostnameKey ≠ ""
  · rw [if_pos hc, annHas_annSet_ne _ _ h2]
  · rw [if_neg hc, annHas_annDel_ne _ h2]

theorem restore_write_aux (anns0 : List (String × String)) (cn : Option String)
    (ns nm : String) (rc rext : Bool) :
    (restoreIngressState (some ⟨ns, nm, cn, some anns0⟩) rc rext).isSome =
      (rc || (rext && (annHas anns0 originalExtHostnameKey ||
        annHas anns0 originalExtSourceKey || annHas anns0 extSourceKey))) := by
  simp only [restoreIngressState]
  have e1c : ∀ K, K ≠ originalClassKey → K ≠ originalClassNameKey →
      K ≠ ingressDisabledKey → K ≠ ingressClassKey →
      annHas (if rc then restoreClassAnns anns0 else anns0) K = annHas anns0 K := by
    intro K a b c d
    by_cases hrc : rc = true
    · rw [if_pos hrc, annHas_restoreClassAnns _ _ a b c d]
    · rw [if_neg hrc]
  have e1 : annHas (if rc then restoreClassAnns anns0 else anns0) originalExtHostnameKey =
      annHas anns0 originalExtHostnameKey :=
    e1c _ (by decide) (by decide) (by decide) (by decide)
  have e2c : ∀ K, K ≠ originalClassKey → K ≠ originalClassNameKey →
      K ≠ ingressDisabledKey → K ≠ ingressClassKey →
      K ≠ originalExtHostnameKey → K ≠ extHostnameKey →
      annHas
        (if rext && annHas (if rc then restoreClassAnns anns0 else anns0) originalExtHostnameKey
          then restoreHostAnns (if rc then restoreClassAnns anns0 else anns0)
          else (if rc then restoreClassAnns anns0 else anns0)) K = annHas anns0 K := by
    intro K a b c d e f
    by_cases hh : (rext && annHas (if rc then restoreClassAnns anns0 else anns0)
        originalExtHostnameKey) = true
    · rw [if_pos hh, annHas_restoreHostAnns _ _ e f, e1c _ a b c d]
    · rw [if_neg hh, e1c _ a b c d]
  have e2 := e2c originalExtSourceKey (by decide) (by decide) (by decide) (by decide)
    (by decide) (by decide)
  have e3 := e2c extSourceKey (by decide) (by decide) (by decide) (by decide)
    (by decide) (by decide)
  rw [e2, e3, e1]
  cases rc <;> cases rext <;>
    cases hx : annHas anns0 originalExtHostnameKey <;>
    cases hy : annHas anns0 originalExtSourceKey <;>
    cases hz : annHas anns0 extSourceKey <;>
    simp [hx, hy, hz]

/-- C9 (amended): the restore operation issues a write iff `restoreClass`
is requested, or `restoreExternalDNS` is requested and at least one of
the original-hostname shadow, original-hostname-source shadow, or live
hostname-source annotations is present.  In particular, when
`restoreClass` is requested an update is issued even when nothing in the
declaration changes. -/
theorem c9_restore_write_characterization (ing : Ingress) (rc rext : Bool) :
    (restoreIngressState (some ing) rc rext).isSome =
      (rc || (rext && (annHasOpt ing.annotations originalExtHostnameKey ||
        annHasOpt ing.annotations originalExtSourceKey ||
        annHasOpt ing.annotations extSourceKey))) := by
  obtain ⟨ns, nm, cn, annsO⟩ := ing
  cases annsO with
  | none =>
    have : restoreIngressState (some ⟨ns, nm, cn, none⟩) rc rext =
        restoreIngressState (some ⟨ns, nm, cn, some []⟩) rc rext := rfl
    rw [this, restore_write_aux]
    rfl
  | some anns0 => exact restore_write_aux anns0 cn ns nm rc rext

/-- C9 counterexample: with `restoreClass` requested, an ingress whose
relevant fields need no restoration (no shadow annotations, class already
unset) is written back unchanged — an update is issued although neither
dimension changed anything, refuting the claimed no-op. -/
theorem c9_counterexample :
    restoreIngressState (some ⟨"ns", "n", none, some [("foo", "bar")]⟩) true false =
      some ⟨"ns", "n", none, some [("foo", "bar")]⟩ := by decide

/-! ## Deletion eligibility (`cmd/reenabler/main.go`)

`GetHTTPRoutesWithPrefix`, `IsManagedByUsForIngress` and
`IsManagedByUsWithIngress` live in `internal/utils` files not among the
provided sources; the ownership checks are modelled from the spec (§4.5 /
§4.6): an object passes iff it carries the engine's identity marker and
is attributed to the given ingress. -/

/-- A derived object (HTTPRoute or Gateway) as seen by the managed-resource
checks: whether it carries the engine's identity marker, and the ingress
it is attributed to. -/
structure ManagedObj where
  managed : Bool
  forNamespace : String
  forName : String
deriving DecidableEq

/-- Modelled from the spec: `IsManagedByUsForIngress` /
`IsManagedByUsWithIngress` (ownership check §4.5 plus per-ingress
attribution), true iff the object carries the engine's identity marker
and is attributed to the ingress `(ns, name)`. -/
def isManagedForIngress (o : ManagedObj) (ns name : String) : Bool :=
  o.managed && o.forNamespace = ns && o.forName = name

deriving instance DecidableEq for Except

/-- The two store reads performed by `hasManagedResources`: the result of
`GetHTTPRoutesWithPrefix(ns, name)` and of listing all Gateways. -/
structure ReenablerWorld where
  routesResult : Except String (List ManagedObj)
  gatewaysResult : Except String (List ManagedObj)
deriving DecidableEq

/-- `hasManagedResources` from `cmd/reenabler/main.go`: `(hasRoute,
hasGateway)`, with the Gateway list consulted only when a managed route
was found. -/
def hasManagedResources (w : ReenablerWorld) (ing : Option Ingress) :
    Except String (Bool × Bool) :=
  match ing with
  | none => .ok (false, false)
  | some ingress =>
    match w.routesResult with
    | .error e => .error e
    | .ok routes =>
      let hasRoute := routes.any (fun r => isManagedForIngress r ingress.ns ingress.name)
      if !hasRoute then .ok (false, false)
      else
        match w.gatewaysResult with
        | .error e => .error e
        | .ok gws =>
          if gws.any (fun g => isManagedForIngress g ingress.ns ingress.name) then
            .ok (true, true)
          else .ok (hasRoute, false)

/-- `checkDeleteEligibility` from `cmd/reenabler/main.go`: `(eligible,
reason)`, or the propagated fetch error. -/
def checkDeleteEligibility (w : ReenablerWorld) (ing : Option Ingress) :
    Except String (Bool × String) :=
  match ing with
  | none => .ok (false, "missing ingress")
  | some ingress =>
    if annGetOpt ingress.annotations ingressDisabledKey = "" then
      .ok (false, "missing ingress-doperator disabled annotation")
    else if !shouldDeleteIngress (some ingress) then
      .ok (false, "disabled annotation does not satisfy delete criteria")
    else
      match hasManagedResources w (some ingress) with
      | .error e => .error e
      | .ok (hasRoute, hasGateway) =>
        if !hasRoute && !hasGateway then .ok (false, "missing managed HTTPRoute and Gateway")
        else if !hasRoute then .ok (false, "missing managed HTTPRoute")
        else if !hasGateway then .ok (false, "missing managed Gateway")
        else .ok (true, "")

theorem shouldDelete_dv_ne {ing : Ingress} (h : shouldDeleteIngress (some ing) = true) :
    annGetOpt ing.annotations ingressDisabledKey ≠ "" := by
  cases ha : ing.annotations with
  | none =>
    simp only [shouldDeleteIngress, ha] at h
    exact (Bool.false_ne_true h).elim
  | some anns =>
    simp only [shouldDeleteIngress, ha] at h
    simp only [annGetOpt]
    intro hdv
    rw [if_pos hdv] at h
    cases h

/-- C1 (amended): `checkDeleteEligibility` is eligible exactly when
`shouldDelete` holds and both a managed derived HTTPRoute and a managed
derived Gateway are found; when no managed route is found the Gateway
list is not consulted and the combined reason "missing managed HTTPRoute
and Gateway" is reported (even if a managed Gateway exists); the reason
"missing managed Gateway" identifies the case where a managed route was
found but no managed Gateway. -/
theorem c1_delete_eligibility (w : ReenablerWorld) (ing : Ingress)
    (routes gws : List ManagedObj)
    (hr : w.routesResult = .ok routes) (hg : w.gatewaysResult = .ok gws) :
    ((checkDeleteEligibility w (some ing) = .ok (true, "")) ↔
      (shouldDeleteIngress (some ing) = true ∧
        routes.any (fun o => isManagedForIngress o ing.ns ing.name) = true ∧
        gws.any (fun o => isManagedForIngress o ing.ns ing.name) = true)) ∧
    (shouldDeleteIngress (some ing) = true →
      routes.any (fun o => isManagedForIngress o ing.ns ing.name) = false →
      checkDeleteEligibility w (some ing) =
        .ok (false, "missing managed HTTPRoute and Gateway")) ∧
    (shouldDeleteIngress (some ing) = true →
      routes.any (fun o => isManagedForIngress o ing.ns ing.name) = true →
      gws.any (fun o => isManagedForIngress o ing.ns ing.name) = false →
      checkDeleteEligibility w (some ing) = .ok (false, "missing managed Gateway")) := by
  by_cases hsd : shouldDeleteIngress (some ing) = true
  · have hdv := shouldDelete_dv_ne hsd
    simp only [checkDeleteEligibility, hasManagedResources, hr, hg, if_neg hdv, hsd,
      Bool.not_true, Bool.false_eq_true, if_false]
    by_cases hro : routes.any (fun o => isManagedForIngress o ing.ns ing.name) = true
    · rw [hro]
      by_cases hgw : gws.any (fun o => isManagedForIngress o ing.ns ing.name) = true
      · rw [if_pos hgw]
        simp [hsd, hro, hgw]
      · rw [if_neg hgw]
        simp only [Bool.not_eq_true] at hgw
        simp [hsd, hro, hgw]
    · simp only [Bool.not_eq_true] at hro
      rw [hro]
      simp [hsd, hro]
  · simp only [Bool.not_eq_true] at hsd
    refine ⟨?_, ?_, ?_⟩
    · constructor
      · intro h
        exfalso
        by_cases hdv : annGetOpt ing.annotations ingressDisabledKey = ""
        · simp only [checkDeleteEligibility, if_pos hdv] at h
          cases h
        · simp only [checkDeleteEligibility, if_neg hdv, hsd, Bool.not_false, if_true] at h
          cases h
      · rintro ⟨h1, -, -⟩
        rw [hsd] at h1
        cases h1
    · intro h1
      rw [hsd] at h1
      cases h1
    · intro h1
      rw [hsd] at h1
      cases h1

/-- C1 counterexample: with no managed HTTPRoute but a managed Gateway
verifiably present, the returned reason is "missing managed HTTPRoute and
Gateway" — it does not identify the missing piece as the route only, so
the reason string misreports the Gateway as missing. -/
theorem c1_counterexample :
    checkDeleteEligibility ⟨.ok [], .ok [⟨true, "ns", "n"⟩]⟩
      (some ⟨"ns", "n", some disabledClassName, some [(ingressDisabledKey, reasonNormal)]⟩) =
      .ok (false, "missing managed HTTPRoute and Gateway") ∧
    isManagedForIngress ⟨true, "ns", "n"⟩ "ns" "n" = true := by decide

/-- C1 witness: the amended characterization evaluated at a concrete world
with a managed route but no managed Gateway. -/
theorem c1_witness :
    checkDeleteEligibility ⟨.ok [⟨true, "ns", "n"⟩], .ok []⟩
      (some ⟨"ns", "n", some disabledClassName, some [(ingressDisabledKey, reasonNormal)]⟩) =
      .ok (false, "missing managed Gateway") :=
  (c1_delete_eligibility ⟨.ok [⟨true, "ns", "n"⟩], .ok []⟩
    ⟨"ns", "n", some disabledClassName, some [(ingressDisabledKey, reasonNormal)]⟩
    [⟨true, "ns", "n"⟩] [] rfl rfl).2.2 (by decide) (by decide) (by decide)

/-! ## Gateway spec merge (`internal/translator/gateway_utils.go`) -/

def gmapFind : List (GoStr × GoStr) → GoStr → Option GoStr
  | [], _ => none
  | p :: rest, k => if p.1 = k then some p.2 else gmapFind rest k

def gmapGet (m : List (GoStr × GoStr)) (k : GoStr) : GoStr :=
  (gmapFind m k).getD []

def gmapHas (m : List (GoStr × GoStr)) (k : GoStr) : Bool :=
  (gmapFind m k).isSome

def gmapSet : List (GoStr × GoStr) → GoStr → GoStr → List (GoStr × GoStr)
  | [], k, v => [(k, v)]
  | p :: rest, k, v => if p.1 = k then (k, v) :: rest else p :: gmapSet rest k v

/-- Modelled from the spec: `translator.MismatchedCertAnnotation` (declared
in a translator file not among the provided sources), the key holding the
semicolon-separated certificate-mismatch records. -/
def mismatchedCertKey : GoStr := "ingress-doperator.fiction.si/certificate-mismatch".data

/-- Modelled from the spec: `translator.SourceAnnotation` (declared in a
translator file not among the provided sources), the comma-separated
declaration-source key. -/
def sourceKey : GoStr := "ingress-doperator.fiction.si/source".data

/-- The engine's private annotation-key namespace, from the
`strings.HasPrefix` check in `MergeGatewaySpec`. -/
def doperatorPrefixStr : GoStr := "ingress-doperator.fiction.si/".data

/-- A Gateway listener: merge and removal inspect only its name (the
transformed hostname); every other field is opaque payload. -/
structure Listener where
  name : GoStr
  payload : GoStr
deriving DecidableEq

/-- The parts of a Gateway touched by `MergeGatewaySpec` /
`RemoveIngressListeners`: annotation map (possibly `nil`), class name,
infrastructure annotation map (possibly absent), listener list. -/
structure Gateway where
  annotations : Option (List (GoStr × GoStr))
  gatewayClassName : GoStr
  infra : Option (List (GoStr × GoStr))
  listeners : List Listener
deriving DecidableEq

/-- A routing rule of an ingress declaration (only the optional hostname
is read here). -/
structure IngressRule where
  host : GoStr
deriving DecidableEq

/-- An ingress declaration as read by the listener-removal path. -/
structure IngressDecl where
  rules : List IngressRule
deriving DecidableEq

/-- The Go-map assignment `m[l.Name] = l` used for the listener map:
overwrite in place when the key exists, append otherwise (insertion order
standing for Go's unspecified map iteration order). -/
def upsertListener (m : List (GoStr × Listener)) (l : Listener) : List (GoStr × Listener) :=
  if m.any (fun p => p.1 = l.name) then
    m.map (fun p => if p.1 = l.name then (p.1, l) else p)
  else m ++ [(l.name, l)]

/-- `RemoveCertMismatchEntries` from `internal/translator/gateway_utils.go`. -/
def removeCertMismatchEntries (certMismatch : GoStr)
    (hostnameMappings : List (GoStr × GoStr)) : GoStr :=
  if certMismatch = [] then []
  else
    goJoin [';', ' ']
      ((goSplit ';' certMismatch).foldl (fun acc entry =>
        if goTrim entry = [] then acc
        else if hostnameMappings.any
            (fun p => List.isPrefixOf (p.1 ++ ('-' :: '>' :: p.2) ++ [':']) (goTrim entry)) then
          acc
        else acc ++ [goTrim entry]) [])

/-- `MergeGatewaySpec` from `internal/translator/gateway_utils.go`: merge
annotations key by key under the three policies, overwrite the class
name, overlay infrastructure annotations, and merge listeners keyed by
listener name. -/
def mergeGatewaySpec (existing desired : Gateway) : Gateway :=
  let anns1 := (desired.annotations.getD []).foldl (fun acc kv =>
      if kv.1 = mismatchedCertKey then
        gmapSet acc kv.1 (mergeCertificateMismatch (gmapGet acc kv.1) kv.2)
      else if kv.1 = sourceKey then
        gmapSet acc kv.1 (mergeAnnotationValues (gmapGet acc kv.1) kv.2)
      else if List.isPrefixOf doperatorPrefixStr kv.1 then
        gmapSet acc kv.1 kv.2
      else
        gmapSet acc kv.1 (mergeAnnotationValues (gmapGet acc kv.1) kv.2))
    (existing.annotations.getD [])
  let infra1 := match desired.infra with
    | none => existing.infra
    | some dInfra => some (dInfra.foldl (fun acc kv => gmapSet acc kv.1 kv.2)
        (existing.infra.getD []))
  let lmap := desired.listeners.foldl upsertListener
    (existing.listeners.foldl upsertListener [])
  { annotations := some anns1
    gatewayClassName := desired.gatewayClassName
    infra := infra1
    listeners := lmap.map (fun p => p.2) }

/-- The set of (transformed) hostnames an ingress contributes, from the
first loop of `RemoveIngressListeners`. -/
def ingressRemovalHostnames (ing : IngressDecl) (transform : GoStr → GoStr) : List GoStr :=
  ing.rules.foldl (fun acc r => if r.host ≠ [] then acc ++ [transform r.host] else acc) []

/-- The original→transformed hostname mapping built by
`RemoveIngressListeners`. -/
def ingressHostnameMappings (ing : IngressDecl) (transform : GoStr → GoStr) :
    List (GoStr × GoStr) :=
  ing.rules.foldl (fun acc r =>
    if r.host ≠ [] then gmapSet acc r.host (transform r.host) else acc) []

/-- `RemoveIngressListeners` from `internal/translator/gateway_utils.go`:
drop every listener whose name is one of the ingress's transformed
hostnames, and prune matching certificate-mismatch records
(`t.TransformHostname` is the `transform` parameter; it is declared in a
translator file not among the provided sources). -/
def removeIngressListeners (gw : Gateway) (ing : IngressDecl)
    (transform : GoStr → GoStr) : Gateway :=
  let toRemove := ingressRemovalHostnames ing transform
  let remaining := gw.listeners.filter (fun l => decide (l.name ∉ toRemove))
  let anns := match gw.annotations with
    | none => none
    | some a =>
      if gmapHas a mismatchedCertKey then
        some (gmapSet a mismatchedCertKey
          (removeCertMismatchEntries (gmapGet a mismatchedCertKey)
            (ingressHostnameMappings ing transform)))
      else some a
  { gw with listeners := remaining, annotations := anns }

-- Lemmas about the listener-map fold.

theorem upsertListener_key_eq {m : List (GoStr × Listener)}
    (hm : ∀ p ∈ m, p.1 = p.2.name) (l : Listener) :
    ∀ p ∈ upsertListener m l, p.1 = p.2.name := by
  intro p hp
  unfold upsertListener at hp
  split at hp
  · rcases List.mem_map.mp hp with ⟨q, hq, hpq⟩
    by_cases hql : q.1 = l.name
    · rw [if_pos hql] at hpq
      rw [← hpq, hql]
    · rw [if_neg hql] at hpq
      rw [← hpq]
      exact hm q hq
  · rcases List.mem_append.mp hp with h | h
    · exact hm p h
    · rw [List.mem_singleton.mp h]

theorem upsert_fold_key_eq (ls : List Listener) (m : List (GoStr × Listener))
    (hm : ∀ p ∈ m, p.1 = p.2.name) :
    ∀ p ∈ ls.foldl upsertListener m, p.1 = p.2.name := by
  induction ls generalizing m with
  | nil => exact hm
  | cons l rest ih =>
    rw [List.foldl_cons]
    exact ih (upsertListener m l) (upsertListener_key_eq hm l)

theorem upsert_fold_keys (ls : List Listener) (m : List (GoStr × Listener)) :
    ∀ p ∈ ls.foldl upsertListener m,
      p.1 ∈ m.map Prod.fst ∨ p.1 ∈ ls.map Listener.name := by
  induction ls generalizing m with
  | nil =>
    intro p hp
    exact Or.inl (List.mem_map.mpr ⟨p, hp, rfl⟩)
  | cons l rest ih =>
    intro p hp
    rw [List.foldl_cons] at hp
    rcases ih (upsertListener m l) p hp with h | h
    · unfold upsertListener at h
      split at h
      · rcases List.mem_map.mp h with ⟨q, hq, hpq⟩
        rcases List.mem_map.mp hq with ⟨q0, hq0, hq0q⟩
        by_cases hql : q0.1 = l.name
        · right
          rw [List.map_cons]
          rw [← hpq, ← hq0q, if_pos hql, hql]
          exact List.mem_cons_self _ _
        · left
          rw [← hpq, ← hq0q, if_neg hql]
          exact List.mem_map.mpr ⟨q0, hq0, rfl⟩
      · rcases List.mem_map.mp h with ⟨q, hq, hpq⟩
        rcases List.mem_append.mp hq with h0 | h0
        · exact Or.inl (List.mem_map.mpr ⟨q, h0, hpq⟩)
        · right
          rw [List.mem_singleton.mp h0] at hpq
          rw [← hpq, List.map_cons]
          exact List.mem_cons_self _ _
    · right
      rw [List.map_cons]
      exact List.mem_cons_of_mem _ h

theorem upsert_fold_fresh (ls : List Listener) (m : List (GoStr × Listener))
    (h : ∀ l ∈ ls, ∀ p ∈ m, p.1 ≠ l.name)
    (hnodup : (ls.map Listener.name).Nodup) :
    ls.foldl upsertListener m = m ++ ls.map (fun l => (l.name, l)) := by
  induction ls generalizing m with
  | nil => simp
  | cons l rest ih =>
    rw [List.foldl_cons]
    have hany : m.any (fun p => p.1 = l.name) = false := by
      rw [List.any_eq_false]
      intro p hp
      simpa using h l (List.mem_cons_self _ _) p hp
    have hstep : upsertListener m l = m ++ [(l.name, l)] := by
      unfold upsertListener
      rw [hany]
      simp
    rw [hstep]
    rw [List.map_cons] at hnodup
    have hnotin : l.name ∉ rest.map Listener.name := List.nodup_cons.mp hnodup |>.1
    have hrest := List.nodup_cons.mp hnodup |>.2
    rw [ih (m ++ [(l.name, l)]) ?hfresh hrest]
    · simp
    case hfresh =>
      intro l' hl' p hp
      rcases List.mem_append.mp hp with h0 | h0
      · exact h l' (List.mem_cons_of_mem _ hl') p h0
      · rw [List.mem_singleton.mp h0]
        intro hc
        refine hnotin ?_
        have hc' : l.name = l'.name := hc
        rw [hc']
        exact List.mem_map.mpr ⟨l', hl', rfl⟩

theorem upsert_fold_append (ls : List Listener) (m₁ m₂ : List (GoStr × Listener))
    (h : ∀ l ∈ ls, ∀ p ∈ m₁, p.1 ≠ l.name) :
    ls.foldl upsertListener (m₁ ++ m₂) = m₁ ++ ls.foldl upsertListener m₂ := by
  induction ls generalizing m₂ with
  | nil => simp
  | cons l rest ih =>
    rw [List.foldl_cons, List.foldl_cons]
    have hm1 : ∀ p ∈ m₁, ¬ (p.1 = l.name) := h l (List.mem_cons_self _ _)
    have hstep : upsertListener (m₁ ++ m₂) l = m₁ ++ upsertListener m₂ l := by
      unfold upsertListener
      have hany1 : m₁.any (fun p => p.1 = l.name) = false := by
        rw [List.any_eq_false]
        intro p hp
        simpa using hm1 p hp
      rw [List.any_append, hany1, Bool.false_or]
      have hmap : ∀ (mm : List (GoStr × Listener)), (∀ p ∈ mm, ¬ p.1 = l.name) →
          mm.map (fun p => if p.1 = l.name then (p.1, l) else p) = mm := by
        intro mm
        induction mm with
        | nil => intro _; rfl
        | cons q qs ihq =>
          intro hq
          rw [List.map_cons, if_neg (hq q (List.mem_cons_self _ _)),
            ihq (fun p hp => hq p (List.mem_cons_of_mem _ hp))]
      by_cases h2 : m₂.any (fun p => p.1 = l.name) = true
      · rw [h2, if_pos rfl, if_pos rfl, List.map_append, hmap m₁ hm1]
      · rw [Bool.not_eq_true] at h2
        rw [h2]
        simp [List.append_assoc]
    rw [hstep]
    exact ih (upsertListener m₂ l) (fun l' hl' => h l' (List.mem_cons_of_mem _ hl'))

/-- C5 (amended): merging a declaration's derived listener set into a
Gateway and then removing that declaration's listeners restores the
original listener list exactly, provided the original Gateway's listener
names are pairwise distinct and disjoint from the declaration's
transformed hostnames, and every desired listener is named by one of the
declaration's transformed hostnames (as the translator guarantees when
deriving listeners). -/
theorem c5_merge_remove_roundtrip (gw desired : Gateway) (ing : IngressDecl)
    (transform : GoStr → GoStr)
    (hnodup : (gw.listeners.map Listener.name).Nodup)
    (hdisj : ∀ l ∈ gw.listeners, l.name ∉ ingressRemovalHostnames ing transform)
    (hdes : ∀ l ∈ desired.listeners, l.name ∈ ingressRemovalHostnames ing transform) :
    (removeIngressListeners (mergeGatewaySpec gw desired) ing transform).listeners =
      gw.listeners := by
  have hE : gw.listeners.foldl upsertListener [] =
      gw.listeners.map (fun l => (l.name, l)) := by
    have := upsert_fold_fresh gw.listeners []
      (fun l _ p hp => absurd hp (List.not_mem_nil p)) hnodup
    simpa using this
  have hfreshE : ∀ l ∈ desired.listeners,
      ∀ p ∈ gw.listeners.map (fun l => (l.name, l)), p.1 ≠ l.name := by
    intro l hl p hp
    rcases List.mem_map.mp hp with ⟨g, hg, hgp⟩
    rw [← hgp]
    intro hc
    refine hdisj g hg ?_
    have hc' : g.name = l.name := hc
    rw [hc']
    exact hdes l hl
  have hD : desired.listeners.foldl upsertListener
        (gw.listeners.map (fun l => (l.name, l))) =
      gw.listeners.map (fun l => (l.name, l)) ++
        desired.listeners.foldl upsertListener [] := by
    have := upsert_fold_append desired.listeners
      (gw.listeners.map (fun l => (l.name, l))) [] hfreshE
    simpa using this
  have hmerged : (mergeGatewaySpec gw desired).listeners =
      gw.listeners ++ (desired.listeners.foldl upsertListener []).map (fun p => p.2) := by
    simp only [mergeGatewaySpec]
    rw [hE, hD, List.map_append, List.map_map]
    rw [show ((fun p : GoStr × Listener => p.2) ∘ fun l : Listener => (l.name, l)) = id
      from rfl, List.map_id]
  simp only [removeIngressListeners]
  rw [hmerged, List.filter_append]
  have h1 : gw.listeners.filter
      (fun l => decide (l.name ∉ ingressRemovalHostnames ing transform)) = gw.listeners := by
    apply List.filter_eq_self.mpr
    intro a ha
    exact decide_eq_true (hdisj a ha)
  have h2 : ((desired.listeners.foldl upsertListener []).map (fun p => p.2)).filter
      (fun l => decide (l.name ∉ ingressRemovalHostnames ing transform)) = [] := by
    apply List.filter_eq_nil_iff.mpr
    intro a ha
    rcases List.mem_map.mp ha with ⟨p, hp, hpa⟩
    have hkey : p.1 = p.2.name :=
      upsert_fold_key_eq desired.listeners [] (fun q hq => absurd hq (List.not_mem_nil q)) p hp
    rcases upsert_fold_keys desired.listeners [] p hp with h0 | h0
    · simp at h0
    · rcases List.mem_map.mp h0 with ⟨d, hd, hdn⟩
      have hmem : a.name ∈ ingressRemovalHostnames ing transform := by
        have ha1 : a.name = p.2.name := by rw [← hpa]
        rw [ha1, ← hkey, ← hdn]
        exact hdes d hd
      simp [hmem]
  rw [h1, h2, List.append_nil]

/-- C5 counterexample: when the Gateway already contains a listener whose
name collides with one of the declaration's transformed hostnames, the
merge overwrites it and the removal deletes it, so the round trip loses
the original listener instead of restoring it. -/
theorem c5_counterexample :
    (removeIngressListeners
      (mergeGatewaySpec ⟨none, [], none, [⟨"h".data, "p".data⟩]⟩
        ⟨none, [], none, [⟨"h".data, "q".data⟩]⟩)
      ⟨[⟨"h".data⟩]⟩ id).listeners = [] ∧
    (⟨none, [], none, [⟨"h".data, "p".data⟩]⟩ : Gateway).listeners ≠ [] := by decide

/-- C5 witness: the amended round trip evaluated at a concrete Gateway and
declaration with disjoint listener names. -/
theorem c5_witness :
    (removeIngressListeners
      (mergeGatewaySpec ⟨none, [], none, [⟨"a".data, "p".data⟩]⟩
        ⟨none, [], none, [⟨"h".data, "q".data⟩]⟩)
      ⟨[⟨"h".data⟩]⟩ id).listeners = [⟨"a".data, "p".data⟩] :=
  c5_merge_remove_roundtrip ⟨none, [], none, [⟨"a".data, "p".data⟩]⟩
    ⟨none, [], none, [⟨"h".data, "q".data⟩]⟩ ⟨[⟨"h".data⟩]⟩ id
    (by decide) (by decide) (by decide)

/-! ## Sharded reconcile cache (cache source file)

Cache keys are Go strings viewed as byte sequences (`List Nat`), since the
FNV-1a hash consumes the string byte by byte; serialized values are
character strings (`GoStr`).  ConfigMap `Data` maps are association
lists; the ConfigMap store is a function from shard index to the optional
`Data` map (`none` is not-found, which both load and save treat as an
absent-but-creatable shard). -/

/-- `fnv32a` from the cache source: 32-bit FNV-1a over the key's bytes,
with `uint32` wrap-around modelled as `% 2^32`. -/
def fnv32a (s : List Nat) : Nat :=
  s.foldl (fun hash b => ((hash ^^^ b) * 16777619) % 4294967296) 2166136261

/-- `reconcileCacheShardForKey` from the cache source. -/
def reconcileCacheShardForKey (key : List Nat) (shardCount : Int) : Nat :=
  if shardCount ≤ 1 then 0 else fnv32a key % shardCount.toNat

/-- C8: the shard assigned to a key is the pure function
`fnv32a(key) mod N` of the key and the shard count alone; every shard
count `≤ 0` behaves as `1`, sending all keys to shard `0`. -/
theorem c8_shard_assignment :
    (∀ (key : List Nat) (n : Int), 0 < n →
      reconcileCacheShardForKey key n = fnv32a key % n.toNat) ∧
    (∀ (key : List Nat) (n : Int), n ≤ 0 → reconcileCacheShardForKey key n = 0) := by
  constructor
  · intro key n hn
    by_cases h1 : n ≤ 1
    · have hn1 : n = 1 := le_antisymm h1 hn
      subst hn1
      rw [reconcileCacheShardForKey, if_pos (le_refl _)]
      rw [show Int.toNat 1 = 1 from rfl, Nat.mod_one]
    · rw [reconcileCacheShardForKey, if_neg h1]
  · intro key n hn
    rw [reconcileCacheShardForKey, if_pos (by omega)]

/-- C8 witness: the shard function evaluated at a concrete key for a
positive and a non-positive shard count. -/
theorem c8_witness :
    reconcileCacheShardForKey [1, 2, 3] 16 = fnv32a [1, 2, 3] % (16 : Int).toNat ∧
    reconcileCacheShardForKey [1, 2, 3] 0 = 0 :=
  ⟨c8_shard_assignment.1 [1, 2, 3] 16 (by decide),
    c8_shard_assignment.2 [1, 2, 3] 0 (by decide)⟩

/-- The decimal digit character for `d < 10`. -/
def digitChar (d : Nat) : Char := Char.ofNat (48 + d)

/-- Decimal digit list of a natural number, most significant first;
`fuel`-structured so that it evaluates in the kernel (fuel `n + 1`
always suffices). -/
def natDigitsAux : Nat → Nat → List Char
  | 0, _ => []
  | fuel + 1, n =>
    if n < 10 then [digitChar n]
    else natDigitsAux fuel (n / 10) ++ [digitChar (n % 10)]

def natDigits (n : Nat) : List Char := natDigitsAux (n + 1) n

/-- `fmt.Sprintf("%d", ·)` of an `int64`. -/
def intToDecimal : Int → List Char
  | .ofNat n => natDigits n
  | .negSucc m => '-' :: natDigits (m + 1)

def digitVal (c : Char) : Option Nat :=
  if '0' ≤ c ∧ c ≤ '9' then some (c.toNat - 48) else none

def parseDigitsAux : Nat → List Char → Option Nat
  | acc, [] => some acc
  | acc, c :: rest =>
    match digitVal c with
    | some d => parseDigitsAux (acc * 10 + d) rest
    | none => none

def parseDigits : List Char → Option Nat
  | [] => none
  | l => parseDigitsAux 0 l

/-- Go `strconv.ParseInt(s, 10, 64)`: optional sign, non-empty digit
string, `int64` range check; `none` models a non-nil error. -/
def goParseInt64 (s : GoStr) : Option Int :=
  match s with
  | [] => none
  | c :: rest =>
    if c = '+' then
      (parseDigits rest).bind
        (fun n => if n ≤ 9223372036854775807 then some (n : Int) else none)
    else if c = '-' then
      (parseDigits rest).bind
        (fun n => if n ≤ 9223372036854775808 then some (-(n : Int)) else none)
    else
      (parseDigits (c :: rest)).bind
        (fun n => if n ≤ 9223372036854775807 then some (n : Int) else none)

theorem natDigitsAux_eq (n : Nat) :
    ∀ fuel, n < fuel → natDigitsAux fuel n = natDigits n := by
  induction n using Nat.strong_induction_on with
  | _ n ih =>
    intro fuel hfuel
    match fuel, hfuel with
    | f + 1, hf =>
      by_cases h10 : n < 10
      · simp [natDigitsAux, natDigits, h10]
      · have hq : n / 10 < n := Nat.div_lt_self (by omega) (by omega)
        have e1 : natDigitsAux (f + 1) n =
            natDigitsAux f (n / 10) ++ [digitChar (n % 10)] := by
          simp [natDigitsAux, h10]
        have e2 : natDigits n = natDigitsAux n (n / 10) ++ [digitChar (n % 10)] := by
          rw [natDigits]
          simp [natDigitsAux, h10]
        rw [e1, e2, ih (n / 10) hq f (by omega), ih (n / 10) hq n (by omega)]

theorem natDigits_eq (n : Nat) :
    natDigits n = if n < 10 then [digitChar n]
      else natDigits (n / 10) ++ [digitChar (n % 10)] := by
  by_cases h10 : n < 10
  · rw [if_pos h10, natDigits]
    simp [natDigitsAux, h10]
  · rw [if_neg h10, natDigits]
    have hq : n / 10 < n := Nat.div_lt_self (by omega) (by omega)
    simp only [natDigitsAux, if_neg h10]
    rw [natDigitsAux_eq (n / 10) n hq]

theorem digitVal_digitChar {d : Nat} (h : d < 10) : digitVal (digitChar d) = some d := by
  interval_cases d <;> decide

theorem digitChar_ne_pipe {d : Nat} (h : d < 10) : digitChar d ≠ '|' := by
  interval_cases d <;> decide

theorem digitChar_ne_plus {d : Nat} (h : d < 10) : digitChar d ≠ '+' := by
  interval_cases d <;> decide

theorem digitChar_ne_minus {d : Nat} (h : d < 10) : digitChar d ≠ '-' := by
  interval_cases d <;> decide

theorem natDigits_chars (n : Nat) : ∀ c ∈ natDigits n, ∃ d, d < 10 ∧ c = digitChar d := by
  induction n using Nat.strong_induction_on with
  | _ n ih =>
    intro c hc
    rw [natDigits_eq] at hc
    by_cases h10 : n < 10
    · rw [if_pos h10] at hc
      exact ⟨n, h10, List.mem_singleton.mp hc⟩
    · rw [if_neg h10] at hc
      rcases List.mem_append.mp hc with h | h
      · exact ih (n / 10) (Nat.div_lt_self (by omega) (by omega)) c h
      · exact ⟨n % 10, Nat.mod_lt n (by omega), List.mem_singleton.mp h⟩

theorem pipe_not_mem_natDigits (n : Nat) : '|' ∉ natDigits n := by
  intro hc
  rcases natDigits_chars n '|' hc with ⟨d, hd, hcd⟩
  exact digitChar_ne_pipe hd hcd.symm

theorem pipe_not_mem_intToDecimal (t : Int) : '|' ∉ intToDecimal t := by
  cases t with
  | ofNat n => exact pipe_not_mem_natDigits n
  | negSucc m =>
    intro hc
    rcases List.mem_cons.mp hc with h | h
    · cases h
    · exact pipe_not_mem_natDigits (m + 1) h

theorem natDigits_head (n : Nat) :
    ∃ d rest, d < 10 ∧ natDigits n = digitChar d :: rest := by
  rw [natDigits_eq]
  by_cases h10 : n < 10
  · rw [if_pos h10]
    exact ⟨n, [], h10, rfl⟩
  · rw [if_neg h10]
    rcases natDigits_head (n / 10) with ⟨d, rest, hd, hrw⟩
    exact ⟨d, rest ++ [digitChar (n % 10)], hd, by rw [hrw]; rfl⟩
termination_by n
decreasing_by exact Nat.div_lt_self (by omega) (by omega)

theorem parseDigitsAux_append (acc : Nat) (l₁ l₂ : List Char) :
    parseDigitsAux acc (l₁ ++ l₂) =
      match parseDigitsAux acc l₁ with
      | some a => parseDigitsAux a l₂
      | none => none := by
  induction l₁ generalizing acc with
  | nil => rfl
  | cons c rest ih =>
    rw [List.cons_append]
    have lhs_eq : parseDigitsAux acc (c :: (rest ++ l₂)) =
        match digitVal c with
        | some d => parseDigitsAux (acc * 10 + d) (rest ++ l₂)
        | none => none := rfl
    have rhs_eq : parseDigitsAux acc (c :: rest) =
        match digitVal c with
        | some d => parseDigitsAux (acc * 10 + d) rest
        | none => none := rfl
    rw [lhs_eq, rhs_eq]
    cases hdv : digitVal c with
    | none => rfl
    | some d => exact ih (acc * 10 + d)

theorem parseDigitsAux_natDigits (n : Nat) :
    ∀ acc, parseDigitsAux acc (natDigits n) =
      some (acc * 10 ^ (natDigits n).length + n) := by
  induction n using Nat.strong_induction_on with
  | _ n ih =>
    intro acc
    by_cases h10 : n < 10
    · rw [natDigits_eq, if_pos h10]
      show (match digitVal (digitChar n) with
        | some d => parseDigitsAux (acc * 10 + d) []
        | none => none) = _
      rw [digitVal_digitChar h10]
      show some (acc * 10 + n) = _
      norm_num
    · have hq : n / 10 < n := Nat.div_lt_self (by omega) (by omega)
      conv in natDigits n => rw [natDigits_eq, if_neg h10]
      rw [parseDigitsAux_append, ih (n / 10) hq acc]
      show parseDigitsAux (acc * 10 ^ (natDigits (n / 10)).length + n / 10)
        [digitChar (n % 10)] = _
      show (match digitVal (digitChar (n % 10)) with
        | some d => parseDigitsAux
            ((acc * 10 ^ (natDigits (n / 10)).length + n / 10) * 10 + d) []
        | none => none) = _
      rw [digitVal_digitChar (Nat.mod_lt n (by omega))]
      show some ((acc * 10 ^ (natDigits (n / 10)).length + n / 10) * 10 + n % 10) = _
      rw [natDigits_eq n, if_neg h10, List.length_append, List.length_singleton,
        pow_succ]
      have hdm : n / 10 * 10 + n % 10 = n := by omega
      congr 1
      ring_nf
      omega

theorem parseDigits_natDigits (n : Nat) : parseDigits (natDigits n) = some n := by
  rcases natDigits_head n with ⟨d, rest, hd, hrw⟩
  have h0 : parseDigits (natDigits n) = parseDigitsAux 0 (natDigits n) := by
    rw [hrw]; rfl
  rw [h0, parseDigitsAux_natDigits n 0]
  norm_num

theorem goParseInt64_intToDecimal (t : Int)
    (hlo : -(2 ^ 63) ≤ t) (hhi : t < 2 ^ 63) :
    goParseInt64 (intToDecimal t) = some t := by
  cases t with
  | ofNat n =>
    have hn : n ≤ 9223372036854775807 := by
      have : (n : Int) < 2 ^ 63 := hhi
      omega
    show goParseInt64 (natDigits n) = some (Int.ofNat n)
    rcases natDigits_head n with ⟨d, rest, hd, hrw⟩
    rw [hrw]
    show (if digitChar d = '+' then _ else if digitChar d = '-' then _ else
      (parseDigits (digitChar d :: rest)).bind
        (fun m => if m ≤ 9223372036854775807 then some (m : Int) else none)) = _
    rw [if_neg (digitChar_ne_plus hd), if_neg (digitChar_ne_minus hd), ← hrw,
      parseDigits_natDigits n]
    show (if n ≤ 9223372036854775807 then some (n : Int) else none) = _
    rw [if_pos hn]
    rfl
  | negSucc m =>
    have hm : m + 1 ≤ 9223372036854775808 := by
      have h1 : -(2 ^ 63) ≤ Int.negSucc m := hlo
      rw [Int.negSucc_eq] at h1
      omega
    have e0 : goParseInt64 (intToDecimal (Int.negSucc m)) =
        (parseDigits (natDigits (m + 1))).bind
          (fun n => if n ≤ 9223372036854775808 then some (-(n : Int)) else none) := by
      show (if ('-' : Char) = '+' then
          (parseDigits (natDigits (m + 1))).bind
            (fun n => if n ≤ 9223372036854775807 then some (n : Int) else none)
        else if ('-' : Char) = '-' then
          (parseDigits (natDigits (m + 1))).bind
            (fun n => if n ≤ 9223372036854775808 then some (-(n : Int)) else none)
        else
          (parseDigits ('-' :: natDigits (m + 1))).bind
            (fun n => if n ≤ 9223372036854775807 then some (n : Int) else none)) = _
      rw [if_neg (by decide), if_pos rfl]
    rw [e0, parseDigits_natDigits (m + 1)]
    show (if m + 1 ≤ 9223372036854775808 then some (-(((m + 1 : Nat)) : Int)) else none) =
      some (Int.negSucc m)
    rw [if_pos hm, Int.negSucc_eq]
    congr 1

-- Lemmas about goSplit.

theorem goSplit_ne_nil (sep : Char) (s : GoStr) : goSplit sep s ≠ [] := by
  cases s with
  | nil => simp [goSplit]
  | cons c rest =>
    rw [goSplit]
    by_cases h : c = sep
    · rw [if_pos h]; simp
    · rw [if_neg h]
      cases hs : goSplit sep rest <;> simp

theorem goSplit_no_sep {sep : Char} {s : GoStr} (h : sep ∉ s) : goSplit sep s = [s] := by
  induction s with
  | nil => rfl
  | cons c rest ih =>
    have hc : ¬ c = sep := fun hc => h (hc ▸ List.mem_cons_self c rest)
    rw [goSplit, if_neg hc, ih (fun hm => h (List.mem_cons_of_mem c hm))]

theorem goSplit_append_sep (sep : Char) (a b : GoStr) :
    goSplit sep (a ++ sep :: b) = goSplit sep a ++ goSplit sep b := by
  induction a with
  | nil => simp [goSplit]
  | cons c rest ih =>
    rw [List.cons_append, goSplit, goSplit]
    by_cases hc : c = sep
    · rw [if_pos hc, if_pos hc, ih, List.cons_append]
    · rw [if_neg hc, if_neg hc, ih]
      cases hs : goSplit sep rest with
      | nil => exact absurd hs (goSplit_ne_nil sep rest)
      | cons p ps => rfl

theorem goSplit_length (sep : Char) (s : GoStr) :
    (goSplit sep s).length = s.count sep + 1 := by
  induction s with
  | nil => rfl
  | cons c rest ih =>
    rw [goSplit]
    by_cases hc : c = sep
    · rw [if_pos hc, List.length_cons, ih, List.count_cons]
      simp [hc]
    · rw [if_neg hc]
      cases hs : goSplit sep rest with
      | nil => exact absurd hs (goSplit_ne_nil sep rest)
      | cons p ps =>
        have hlen : ps.length + 1 = List.count sep rest + 1 := by
          rw [← ih, hs, List.length_cons]
        have hcnt : List.count sep (c :: rest) = List.count sep rest := by
          simp [List.count_cons, hc, Ne.symm hc]
        show ((c :: p) :: ps).length = _
        rw [List.length_cons, hcnt]
        omega

/-- `ReconcileCacheEntry` from the cache source: an opaque version token
and a Unix-seconds timestamp (`int64`, modelled as `Int`; theorems using
the parser carry the `int64` range as an explicit hypothesis). -/
structure ReconcileCacheEntry where
  resourceVersion : GoStr
  updatedAtUnix : Int
deriving DecidableEq

/-- `formatReconcileCacheEntry`: `fmt.Sprintf("%s|%d", ...)`. -/
def formatReconcileCacheEntry (e : ReconcileCacheEntry) : GoStr :=
  e.resourceVersion ++ '|' :: intToDecimal e.updatedAtUnix

/-- `parseReconcileCacheEntry`: split on `"|"`, require exactly two
fields, parse the second as a base-10 `int64`. -/
def parseReconcileCacheEntry (raw : GoStr) : Option ReconcileCacheEntry :=
  match goSplit '|' raw with
  | [ver, tsStr] => (goParseInt64 tsStr).map (fun ts => ⟨ver, ts⟩)
  | _ => none

/-- The `int64` range of the timestamp field (it is an `int64` in Go). -/
def tsInRange (t : Int) : Prop := -(2 ^ 63) ≤ t ∧ t < 2 ^ 63

instance (t : Int) : Decidable (tsInRange t) := by
  unfold tsInRange; infer_instance

theorem parse_format_roundtrip (e : ReconcileCacheEntry)
    (hp : '|' ∉ e.resourceVersion) (hr : tsInRange e.updatedAtUnix) :
    parseReconcileCacheEntry (formatReconcileCacheEntry e) = some e := by
  unfold formatReconcileCacheEntry parseReconcileCacheEntry
  rw [goSplit_append_sep, goSplit_no_sep hp,
    goSplit_no_sep (pipe_not_mem_intToDecimal e.updatedAtUnix)]
  show (goParseInt64 (intToDecimal e.updatedAtUnix)).map
    (fun ts => (⟨e.resourceVersion, ts⟩ : ReconcileCacheEntry)) = some e
  rw [goParseInt64_intToDecimal e.updatedAtUnix hr.1 hr.2]
  rfl

theorem parse_none_of_len_ne_two (raw : GoStr)
    (h : (goSplit '|' raw).length ≠ 2) : parseReconcileCacheEntry raw = none := by
  unfold parseReconcileCacheEntry
  cases h0 : goSplit '|' raw with
  | nil => rfl
  | cons x xs =>
    cases xs with
    | nil => rfl
    | cons y ys =>
      cases ys with
      | nil => exact absurd (by rw [h0]; rfl) h
      | cons z zs => rfl

theorem format_pipe_split_long (e : ReconcileCacheEntry)
    (hp : '|' ∈ e.resourceVersion) :
    2 < (goSplit '|' (formatReconcileCacheEntry e)).length := by
  unfold formatReconcileCacheEntry
  rw [goSplit_append_sep, List.length_append, goSplit_length,
    goSplit_no_sep (pipe_not_mem_intToDecimal e.updatedAtUnix)]
  have h1 : 1 ≤ List.count '|' e.resourceVersion := List.count_pos_iff.mpr hp
  rw [List.length_singleton]
  omega

abbrev CacheKey := List Nat

abbrev ShardData := List (CacheKey × GoStr)

/-- The ConfigMap store: shard index ↦ `Data` map of the ConfigMap named
`{baseName}-{shard}`, `none` when that ConfigMap is not found (a `nil`
`Data` map behaves identically to not-found in `Load`, so both are
`none`).  Other read failures abort both operations and are outside the
round-trip statements. -/
abbrev CacheStore := Nat → Option ShardData

/-- The `if shardCount <= 0 { shardCount = 1 }` normalization shared by
`LoadReconcileCacheSharded` and `SaveReconcileCacheSharded`. -/
def normShardCount (sc : Int) : Nat := if sc ≤ 0 then 1 else sc.toNat

/-- `SaveReconcileCacheSharded`: partition the entries by
`reconcileCacheShardForKey`, serialize each, and write every shard
`0 .. n-1` with exactly its partition (create-or-update both replace the
shard's `Data`); shards `≥ n` are untouched. -/
def saveReconcileCacheSharded (store : CacheStore) (sc : Int)
    (data : List (CacheKey × ReconcileCacheEntry)) : CacheStore :=
  let n := normShardCount sc
  fun shard =>
    if shard < n then
      some ((data.filter
          (fun kv => decide (reconcileCacheShardForKey kv.1 (n : Int) = shard))).map
        (fun kv => (kv.1, formatReconcileCacheEntry kv.2)))
    else store shard

/-- One `out[key] = entry` step of `LoadReconcileCacheSharded`'s inner
loop: skip unparseable values, skip entries older than the cutoff,
otherwise insert into the result map (modelled as a function). -/
def loadStep (cutoff : Int) (out : CacheKey → Option ReconcileCacheEntry)
    (kv : CacheKey × GoStr) : CacheKey → Option ReconcileCacheEntry :=
  match parseReconcileCacheEntry kv.2 with
  | none => out
  | some e =>
    if e.updatedAtUnix < cutoff then out
    else fun k => if k = kv.1 then some e else out k

/-- Processing one shard's ConfigMap in `LoadReconcileCacheSharded`
(not-found and `nil` `Data` both skip the shard). -/
def loadShard (cutoff : Int) (out : CacheKey → Option ReconcileCacheEntry)
    (data : Option ShardData) : CacheKey → Option ReconcileCacheEntry :=
  match data with
  | none => out
  | some d => d.foldl (loadStep cutoff) out

/-- `LoadReconcileCacheSharded`: read shards `0 .. n-1`, parse and
time-filter every entry (cutoff `now − 24h` in Unix seconds), and return
the merged map. -/
def loadReconcileCacheSharded (store : CacheStore) (sc : Int) (now : Int) :
    CacheKey → Option ReconcileCacheEntry :=
  (List.range (normShardCount sc)).foldl
    (fun out shard => loadShard (now - 86400) out (store shard)) (fun _ => none)

/-- The Go-map lookup on the entry map handed to `save` (association list
with pairwise-distinct keys). -/
def lookupEntry : List (CacheKey × ReconcileCacheEntry) → CacheKey →
    Option ReconcileCacheEntry
  | [], _ => none
  | kv :: rest, k => if kv.1 = k then some kv.2 else lookupEntry rest k

-- Lemmas about the load folds.

theorem loadStep_other (cutoff : Int) (out : CacheKey → Option ReconcileCacheEntry)
    (kv : CacheKey × GoStr) (k : CacheKey) (hk : k ≠ kv.1) :
    loadStep cutoff out kv k = out k := by
  unfold loadStep
  cases hp : parseReconcileCacheEntry kv.2 with
  | none => rfl
  | some e =>
    show (if e.updatedAtUnix < cutoff then out
      else fun k' => if k' = kv.1 then some e else out k') k = out k
    by_cases hs : e.updatedAtUnix < cutoff
    · rw [if_pos hs]
    · rw [if_neg hs]
      exact if_neg hk

theorem loadShardData_not_mem (cutoff : Int) (d : ShardData) (k : CacheKey)
    (hk : ∀ v, (k, v) ∉ d) :
    ∀ out, d.foldl (loadStep cutoff) out k = out k := by
  induction d with
  | nil => intro out; rfl
  | cons kv rest ih =>
    intro out
    rw [List.foldl_cons]
    have hk1 : k ≠ kv.1 := by
      intro hc
      exact hk kv.2 (by rw [hc]; exact List.mem_cons_self _ _)
    rw [ih (fun v hv => hk v (List.mem_cons_of_mem _ hv)) (loadStep cutoff out kv),
      loadStep_other cutoff out kv k hk1]

theorem loadShardData_mem (cutoff : Int) (d : ShardData) (k : CacheKey) (v : GoStr)
    (e : ReconcileCacheEntry) (hnd : (d.map Prod.fst).Nodup) (hmem : (k, v) ∈ d)
    (hp : parseReconcileCacheEntry v = some e) (hfresh : ¬ e.updatedAtUnix < cutoff) :
    ∀ out, d.foldl (loadStep cutoff) out k = some e := by
  induction d with
  | nil => cases hmem
  | cons kv rest ih =>
    intro out
    rw [List.foldl_cons]
    rw [List.map_cons, List.nodup_cons] at hnd
    rcases List.mem_cons.mp hmem with h | h
    · have hkv : kv = (k, v) := h.symm
      subst hkv
      have hrest : ∀ v', (k, v') ∉ rest := by
        intro v' hv'
        exact hnd.1 (List.mem_map.mpr ⟨(k, v'), hv', rfl⟩)
      rw [loadShardData_not_mem cutoff rest k hrest]
      unfold loadStep
      rw [hp]
      show (if e.updatedAtUnix < cutoff then out
        else fun k' => if k' = (k, v).1 then some e else out k') k = some e
      rw [if_neg hfresh]
      show (if k = (k, v).1 then some e else out k) = some e
      rw [if_pos rfl]
    · have hk1 : k ≠ kv.1 := by
        intro hc
        exact hnd.1 (List.mem_map.mpr ⟨(k, v), h, by rw [hc]⟩)
      rw [ih hnd.2 h (loadStep cutoff out kv)]

theorem loadShardData_nogood (cutoff : Int) (d : ShardData) (k : CacheKey)
    (hnd : (d.map Prod.fst).Nodup)
    (hbad : ∀ v, (k, v) ∈ d → parseReconcileCacheEntry v = none) :
    ∀ out, d.foldl (loadStep cutoff) out k = out k := by
  induction d with
  | nil => intro out; rfl
  | cons kv rest ih =>
    intro out
    rw [List.foldl_cons]
    rw [List.map_cons, List.nodup_cons] at hnd
    by_cases hk1 : k = kv.1
    · have hkv : kv = (k, kv.2) := by
        cases kv; simp at hk1; rw [hk1]
      have hrest : ∀ v', (k, v') ∉ rest := by
        intro v' hv'
        refine hnd.1 ?_
        rw [hkv]
        exact List.mem_map.mpr ⟨(k, v'), hv', rfl⟩
      rw [loadShardData_not_mem cutoff rest k hrest]
      unfold loadStep
      rw [hbad kv.2 (by rw [hkv]; exact List.mem_cons_self _ _)]
    · rw [ih hnd.2 (fun v hv => hbad v (List.mem_cons_of_mem _ hv))
        (loadStep cutoff out kv), loadStep_other cutoff out kv k hk1]

theorem loadShard_not_mem (cutoff : Int) (dataOpt : Option ShardData) (k : CacheKey)
    (h : ∀ d, dataOpt = some d → ∀ v, (k, v) ∉ d) :
    ∀ out, loadShard cutoff out dataOpt k = out k := by
  intro out
  cases hd : dataOpt with
  | none => rfl
  | some d =>
    show d.foldl (loadStep cutoff) out k = out k
    exact loadShardData_not_mem cutoff d k (h d hd) out

theorem loadRange_not_mem (cutoff : Int) (st : CacheStore) (shards : List Nat)
    (k : CacheKey)
    (h : ∀ s ∈ shards, ∀ d, st s = some d → ∀ v, (k, v) ∉ d) :
    ∀ out, shards.foldl (fun out shard => loadShard cutoff out (st shard)) out k = out k := by
  induction shards with
  | nil => intro out; rfl
  | cons s rest ih =>
    intro out
    rw [List.foldl_cons,
      ih (fun s' hs' => h s' (List.mem_cons_of_mem _ hs')) (loadShard cutoff out (st s)),
      loadShard_not_mem cutoff (st s) k (h s (List.mem_cons_self _ _)) out]

theorem loadRange_mem (cutoff : Int) (st : CacheStore) (shards : List Nat)
    (k : CacheKey) (e : ReconcileCacheEntry) (sstar : Nat)
    (hs : sstar ∈ shards)
    (hother : ∀ s ∈ shards, s ≠ sstar → ∀ d, st s = some d → ∀ v, (k, v) ∉ d)
    (hstar : ∃ d v, st sstar = some d ∧ (d.map Prod.fst).Nodup ∧ (k, v) ∈ d ∧
      parseReconcileCacheEntry v = some e ∧ ¬ e.updatedAtUnix < cutoff) :
    ∀ out, shards.foldl (fun out shard => loadShard cutoff out (st shard)) out k = some e := by
  induction shards with
  | nil => cases hs
  | cons s rest ih =>
    intro out
    rw [List.foldl_cons]
    by_cases hss : s = sstar
    · subst hss
      rcases hstar with ⟨d, v, hsd, hnd, hmem, hp, hfresh⟩
      have hout' : loadShard cutoff out (st s) k = some e := by
        rw [hsd]
        exact loadShardData_mem cutoff d k v e hnd hmem hp hfresh out
      by_cases hrest : s ∈ rest
      · exact ih hrest (fun s' hs' => hother s' (List.mem_cons_of_mem _ hs'))
          (loadShard cutoff out (st s))
      · rw [loadRange_not_mem cutoff st rest k
          (fun s' hs' => hother s' (List.mem_cons_of_mem _ hs')
            (fun hc => hrest (hc ▸ hs'))) (loadShard cutoff out (st s))]
        exact hout'
    · have hs' : sstar ∈ rest := by
        rcases List.mem_cons.mp hs with h0 | h0
        · exact absurd h0.symm hss
        · exact h0
      exact ih hs' (fun s' hss' => hother s' (List.mem_cons_of_mem _ hss'))
        (loadShard cutoff out (st s))

theorem loadRange_bad (cutoff : Int) (st : CacheStore) (shards : List Nat) (k : CacheKey)
    (h : ∀ s ∈ shards, ∀ d, st s = some d → (d.map Prod.fst).Nodup ∧
      ∀ v, (k, v) ∈ d → parseReconcileCacheEntry v = none) :
    ∀ out, shards.foldl (fun out shard => loadShard cutoff out (st shard)) out k = out k := by
  induction shards with
  | nil => intro out; rfl
  | cons s rest ih =>
    intro out
    rw [List.foldl_cons, ih (fun s' hs' => h s' (List.mem_cons_of_mem _ hs'))
      (loadShard cutoff out (st s))]
    cases hd : st s with
    | none => rfl
    | some d =>
      show d.foldl (loadStep cutoff) out k = out k
      exact loadShardData_nogood cutoff d k (h s (List.mem_cons_self _ _) d hd).1
        ((h s (List.mem_cons_self _ _) d hd).2) out

theorem loadStep_fresh (cutoff : Int) (out : CacheKey → Option ReconcileCacheEntry)
    (kv : CacheKey × GoStr) (k : CacheKey) (e : ReconcileCacheEntry)
    (hout : out k = some e → cutoff ≤ e.updatedAtUnix) :
    loadStep cutoff out kv k = some e → cutoff ≤ e.updatedAtUnix := by
  unfold loadStep
  cases hp : parseReconcileCacheEntry kv.2 with
  | none => exact hout
  | some e' =>
    show (if e'.updatedAtUnix < cutoff then out
      else fun k' => if k' = kv.1 then some e' else out k') k = some e → _
    by_cases hs : e'.updatedAtUnix < cutoff
    · rw [if_pos hs]; exact hout
    · rw [if_neg hs]
      show (if k = kv.1 then some e' else out k) = some e → _
      by_cases hk : k = kv.1
      · rw [if_pos hk]
        intro he
        cases Option.some.inj he
        omega
      · rw [if_neg hk]; exact hout

theorem loadShardData_fresh (cutoff : Int) (d : ShardData) (k : CacheKey)
    (e : ReconcileCacheEntry) :
    ∀ out, (out k = some e → cutoff ≤ e.updatedAtUnix) →
      d.foldl (loadStep cutoff) out k = some e → cutoff ≤ e.updatedAtUnix := by
  induction d with
  | nil => intro out hout; exact hout
  | cons kv rest ih =>
    intro out hout
    rw [List.foldl_cons]
    exact ih (loadStep cutoff out kv) (loadStep_fresh cutoff out kv k e hout)

theorem loadRange_fresh (cutoff : Int) (st : CacheStore) (shards : List Nat)
    (k : CacheKey) (e : ReconcileCacheEntry) :
    ∀ out, (out k = some e → cutoff ≤ e.updatedAtUnix) →
      shards.foldl (fun out shard => loadShard cutoff out (st shard)) out k = some e →
      cutoff ≤ e.updatedAtUnix := by
  induction shards with
  | nil => intro out hout; exact hout
  | cons s rest ih =>
    intro out hout
    rw [List.foldl_cons]
    refine ih (loadShard cutoff out (st s)) ?_
    cases hd : st s with
    | none => exact hout
    | some d =>
      show d.foldl (loadStep cutoff) out k = some e → _
      exact loadShardData_fresh cutoff d k e out hout

theorem lookupEntry_none {M : List (CacheKey × ReconcileCacheEntry)} {k : CacheKey}
    (h : lookupEntry M k = none) : ∀ e, (k, e) ∉ M := by
  induction M with
  | nil => intro e he; cases he
  | cons kv rest ih =>
    intro e he
    rw [lookupEntry] at h
    rcases List.mem_cons.mp he with h0 | h0
    · rw [← h0] at h
      rw [if_pos rfl] at h
      cases h
    · by_cases hk : kv.1 = k
      · rw [if_pos hk] at h; cases h
      · rw [if_neg hk] at h
        exact ih h e h0

theorem lookupEntry_some_mem {M : List (CacheKey × ReconcileCacheEntry)} {k : CacheKey}
    {e : ReconcileCacheEntry} (h : lookupEntry M k = some e) : (k, e) ∈ M := by
  induction M with
  | nil => cases h
  | cons kv rest ih =>
    rw [lookupEntry] at h
    by_cases hk : kv.1 = k
    · rw [if_pos hk] at h
      cases Option.some.inj h
      have : kv = (k, kv.2) := by rw [← hk]
      rw [this]
      exact List.mem_cons_self _ _
    · rw [if_neg hk] at h
      exact List.mem_cons_of_mem _ (ih h)

theorem mem_entry_unique {M : List (CacheKey × ReconcileCacheEntry)}
    (hnd : (M.map Prod.fst).Nodup) {k : CacheKey} {a b : ReconcileCacheEntry}
    (ha : (k, a) ∈ M) (hb : (k, b) ∈ M) : a = b := by
  induction M with
  | nil => cases ha
  | cons kv rest ih =>
    rw [List.map_cons, List.nodup_cons] at hnd
    rcases List.mem_cons.mp ha with h0 | h0 <;> rcases List.mem_cons.mp hb with h1 | h1
    · rw [← h1] at h0
      exact congrArg Prod.snd h0
    · exfalso
      refine hnd.1 ?_
      rw [← h0]
      exact List.mem_map.mpr ⟨(k, b), h1, rfl⟩
    · exfalso
      refine hnd.1 ?_
      rw [← h1]
      exact List.mem_map.mpr ⟨(k, a), h0, rfl⟩
    · exact ih hnd.2 h0 h1

theorem normShardCount_pos (sc : Int) : 1 ≤ normShardCount sc := by
  unfold normShardCount
  split
  · exact le_refl 1
  · omega

theorem shardFor_lt (key : CacheKey) (n : Nat) (hn : 1 ≤ n) :
    reconcileCacheShardForKey key (n : Int) < n := by
  unfold reconcileCacheShardForKey
  by_cases h : (n : Int) ≤ 1
  · rw [if_pos h]; omega
  · rw [if_neg h]
    have he : ((n : Int)).toNat = n := by omega
    rw [he]
    exact Nat.mod_lt _ (by omega)

theorem save_shard_eq (store : CacheStore) (sc : Int)
    (data : List (CacheKey × ReconcileCacheEntry)) (s : Nat)
    (hs : s < normShardCount sc) :
    saveReconcileCacheSharded store sc data s =
      some ((data.filter (fun kv =>
          decide (reconcileCacheShardForKey kv.1 ((normShardCount sc) : Int) = s))).map
        (fun kv => (kv.1, formatReconcileCacheEntry kv.2))) := by
  simp only [saveReconcileCacheSharded]
  rw [if_pos hs]

theorem cell_mem {data : List (CacheKey × ReconcileCacheEntry)} {n s : Nat}
    {k : CacheKey} {v : GoStr} :
    (k, v) ∈ (data.filter (fun kv =>
        decide (reconcileCacheShardForKey kv.1 (n : Int) = s))).map
      (fun kv => (kv.1, formatReconcileCacheEntry kv.2)) ↔
    ∃ e, (k, e) ∈ data ∧ reconcileCacheShardForKey k (n : Int) = s ∧
      v = formatReconcileCacheEntry e := by
  constructor
  · intro h
    rcases List.mem_map.mp h with ⟨kv, hkv, hkveq⟩
    rcases List.mem_filter.mp hkv with ⟨hkvd, hkvs⟩
    have hk1 : kv.1 = k := congrArg Prod.fst hkveq
    have hv : v = formatReconcileCacheEntry kv.2 := (congrArg Prod.snd hkveq).symm
    refine ⟨kv.2, ?_, ?_, hv⟩
    · rw [← hk1]
      exact hkvd
    · rw [← hk1]
      exact of_decide_eq_true hkvs
  · rintro ⟨e, hmem, hshard, hv⟩
    refine List.mem_map.mpr ⟨(k, e), List.mem_filter.mpr ⟨hmem, ?_⟩, ?_⟩
    · exact decide_eq_true hshard
    · rw [hv]

theorem cell_nodup {data : List (CacheKey × ReconcileCacheEntry)} {n s : Nat}
    (hnd : (data.map Prod.fst).Nodup) :
    (((data.filter (fun kv =>
        decide (reconcileCacheShardForKey kv.1 (n : Int) = s))).map
      (fun kv => (kv.1, formatReconcileCacheEntry kv.2))).map Prod.fst).Nodup := by
  have h1 : (data.filter (fun kv =>
      decide (reconcileCacheShardForKey kv.1 (n : Int) = s))).Sublist data :=
    List.filter_sublist data
  have h2 := (h1.map Prod.fst).nodup hnd
  rw [List.map_map]
  exact h2

/-- C7 (amended): for any entry map whose keys are distinct and whose
entries carry `'|'`-free version tokens, `int64` timestamps, and
timestamps within the 24-hour retention window, loading after saving
returns exactly the saved map; and — for any store whatsoever — no entry
older than the retention window ever appears in a load result. -/
theorem c7_cache_roundtrip :
    (∀ (store : CacheStore) (sc now : Int)
      (M : List (CacheKey × ReconcileCacheEntry)),
      (M.map Prod.fst).Nodup →
      (∀ kv ∈ M, '|' ∉ kv.2.resourceVersion ∧ tsInRange kv.2.updatedAtUnix ∧
        now - 86400 ≤ kv.2.updatedAtUnix) →
      ∀ k, loadReconcileCacheSharded (saveReconcileCacheSharded store sc M) sc now k =
        lookupEntry M k) ∧
    (∀ (store : CacheStore) (sc now : Int) (k : CacheKey) (e : ReconcileCacheEntry),
      loadReconcileCacheSharded store sc now k = some e →
      now - 86400 ≤ e.updatedAtUnix) := by
  constructor
  · intro store sc now M hnd hok k
    have hn1 : 1 ≤ normShardCount sc := normShardCount_pos sc
    unfold loadReconcileCacheSharded
    cases hk : lookupEntry M k with
    | none =>
      rw [loadRange_not_mem (now - 86400) (saveReconcileCacheSharded store sc M)
        (List.range (normShardCount sc)) k ?_ (fun _ => none)]
      intro s hsmem d hsd v hmemv
      rw [save_shard_eq store sc M s (List.mem_range.mp hsmem)] at hsd
      cases Option.some.inj hsd
      rcases cell_mem.mp hmemv with ⟨e, hmemM, -, -⟩
      exact lookupEntry_none hk e hmemM
    | some e =>
      have hmem : (k, e) ∈ M := lookupEntry_some_mem hk
      obtain ⟨hpipe, hrange, hfresh⟩ := hok (k, e) hmem
      refine loadRange_mem (now - 86400) (saveReconcileCacheSharded store sc M)
        (List.range (normShardCount sc)) k e
        (reconcileCacheShardForKey k ((normShardCount sc) : Int))
        (List.mem_range.mpr (shardFor_lt k _ hn1)) ?_ ?_ (fun _ => none)
      · intro s hsmem hsne d hsd v hmemv
        rw [save_shard_eq store sc M s (List.mem_range.mp hsmem)] at hsd
        cases Option.some.inj hsd
        rcases cell_mem.mp hmemv with ⟨e', -, hshard, -⟩
        exact hsne hshard.symm
      · refine ⟨_, formatReconcileCacheEntry e,
          save_shard_eq store sc M _ (List.mem_range.mp
            (List.mem_range.mpr (shardFor_lt k _ hn1))), cell_nodup hnd,
          cell_mem.mpr ⟨e, hmem, rfl, rfl⟩,
          parse_format_roundtrip e hpipe hrange, by
            have hf : now - 86400 ≤ e.updatedAtUnix := hfresh
            omega⟩
  · intro store sc now k e h
    unfold loadReconcileCacheSharded at h
    exact loadRange_fresh (now - 86400) store (List.range (normShardCount sc)) k e
      (fun _ => none) (fun hc => by cases hc) h

/-- C7 counterexample: a saved entry whose version token contains `'|'` is
within the retention window yet absent after load — the serialized form
splits into three fields and is silently dropped — so `load(save(M)) == M`
fails for maps with such version tokens. -/
theorem c7_counterexample :
    loadReconcileCacheSharded
      (saveReconcileCacheSharded (fun _ => none) 1 [([107], ⟨"a|b".data, 0⟩)]) 1 0 [107] =
      none ∧
    lookupEntry [([107], ⟨"a|b".data, 0⟩)] [107] = some ⟨"a|b".data, 0⟩ ∧
    (0 : Int) - 86400 ≤ 0 := by decide

/-- C7 witness: the amended round trip and the staleness guarantee
evaluated at concrete stores and maps. -/
theorem c7_witness :
    loadReconcileCacheSharded
      (saveReconcileCacheSharded (fun _ => none) 1 [([107], ⟨"v".data, 5⟩)]) 1 5 [107] =
      lookupEntry [([107], ⟨"v".data, 5⟩)] [107] ∧
    ((5 : Int) - 86400 ≤ (5 : Int)) :=
  ⟨c7_cache_roundtrip.1 (fun _ => none) 1 5 [([107], ⟨"v".data, 5⟩)]
      (by decide) (by decide) [107],
    c7_cache_roundtrip.2 (fun s => if s = 0 then some [([107], "v|5".data)] else none)
      1 5 [107] ⟨"v".data, 5⟩ (by decide)⟩

/-- C10: parsing after formatting is the identity on entries whose version
token contains no `'|'` (and whose timestamp is an `int64`, as in Go);
when the version token does contain `'|'`, the serialized form splits
into more than two fields, parsing fails, and the entry — though saved
and within the retention window — is absent from the next load. -/
theorem c10_entry_serialization :
    (∀ e : ReconcileCacheEntry, '|' ∉ e.resourceVersion → tsInRange e.updatedAtUnix →
      parseReconcileCacheEntry (formatReconcileCacheEntry e) = some e) ∧
    (∀ e : ReconcileCacheEntry, '|' ∈ e.resourceVersion →
      2 < (goSplit '|' (formatReconcileCacheEntry e)).length ∧
      parseReconcileCacheEntry (formatReconcileCacheEntry e) = none) ∧
    (∀ (store : CacheStore) (sc now : Int)
      (M : List (CacheKey × ReconcileCacheEntry)) (k : CacheKey)
      (e : ReconcileCacheEntry),
      (M.map Prod.fst).Nodup → lookupEntry M k = some e → '|' ∈ e.resourceVersion →
      loadReconcileCacheSharded (saveReconcileCacheSharded store sc M) sc now k = none) := by
  refine ⟨parse_format_roundtrip, ?_, ?_⟩
  · intro e hp
    refine ⟨format_pipe_split_long e hp, ?_⟩
    exact parse_none_of_len_ne_two _ (by have := format_pipe_split_long e hp; omega)
  · intro store sc now M k e hnd hk hp
    have hmem : (k, e) ∈ M := lookupEntry_some_mem hk
    unfold loadReconcileCacheSharded
    rw [loadRange_bad (now - 86400) (saveReconcileCacheSharded store sc M)
      (List.range (normShardCount sc)) k ?_ (fun _ => none)]
    intro s hsmem d hsd
    rw [save_shard_eq store sc M s (List.mem_range.mp hsmem)] at hsd
    cases Option.some.inj hsd
    refine ⟨cell_nodup hnd, ?_⟩
    intro v hmemv
    rcases cell_mem.mp hmemv with ⟨e', hmemM, -, hv⟩
    have he : e' = e := mem_entry_unique hnd hmemM hmem
    rw [hv, he]
    exact parse_none_of_len_ne_two _ (by have := format_pipe_split_long e hp; omega)

/-- C10 witness: both directions evaluated at concrete entries, and the
drop-on-load behaviour at a concrete saved map. -/
theorem c10_witness :
    parseReconcileCacheEntry (formatReconcileCacheEntry ⟨"abc".data, 7⟩) =
      some ⟨"abc".data, 7⟩ ∧
    parseReconcileCacheEntry (formatReconcileCacheEntry ⟨"a|b".data, 7⟩) = none ∧
    loadReconcileCacheSharded
      (saveReconcileCacheSharded (fun _ => none) 1 [([9], ⟨"a|b".data, 7⟩)]) 1 7 [9] =
      none :=
  ⟨c10_entry_serialization.1 ⟨"abc".data, 7⟩ (by decide) (by decide),
    (c10_entry_serialization.2.1 ⟨"a|b".data, 7⟩ (by decide)).2,
    c10_entry_serialization.2.2 (fun _ => none) 1 7 [([9], ⟨"a|b".data, 7⟩)] [9]
      ⟨"a|b".data, 7⟩ (by decide) (by decide) (by decide)⟩
